import Mathlib

/-!
The nyush shell: command parser, job table, built-in dispatcher and pipeline
executor.

A shallow embedding of `command.c`, `job.c` and `execution.c`.

* C strings are lists of characters (the bytes before the terminating NUL).
* The `Command` nodes obtained from `calloc` live in a heap, a list indexed by
  address; a pointer is `Option Nat` with `none` for `NULL`.
* A store past the end of `args` lands in the fields that follow the array in
  the `Command` struct: `args[MAX_ARGS]` is the storage of `input_file` and
  `args[MAX_ARGS + 1]` that of `output_file`.
* Undefined behaviour of the C program beyond that (a write through a `NULL`
  pointer, a store of an argument into the storage of `append` or past the
  node, a store past the end of `pids`) is the explicit outcome `fault`.
* What the operating system answers (whether `open`, `pipe`, `fork`, `chdir`,
  `kill` succeed, the pids and the wait statuses) is a parameter, `Env`.
-/

namespace Nyush

/-- A C string: the characters before the terminating NUL. -/
abbrev CStr := List Char

/-- `#define MAX_ARGS 100` of `command.h`. -/
def MAX_ARGS : Nat := 100

/-- `#define MAX_JOBS 100` of `job.h`. -/
def MAX_JOBS : Nat := 100

/-- `#define MAX_CMD_LENGTH 1000` of `job.h`. -/
def MAX_CMD_LENGTH : Nat := 1000

/-! ## Tokenisation: `strtok(line, " ")` -/

/-- The delimiter set of every `strtok` call in `parse_command` is `" "`. -/
def isDelim (c : Char) : Bool := c = ' '

/-- First phase of `strtok`: skip the leading delimiter characters. -/
def skipDelims : List Char → List Char
  | [] => []
  | c :: cs => if isDelim c then skipDelims cs else c :: cs

/-- Second phase of `strtok`: the token runs up to the next delimiter (which is
overwritten by NUL); the scan resumes after it. Returns the token and the rest. -/
def scanToken : List Char → CStr × List Char
  | [] => ([], [])
  | c :: cs =>
    if isDelim c then ([], cs)
    else
      match scanToken cs with
      | (tok, rest) => (c :: tok, rest)

/-- One call of `strtok`: `none` is the `NULL` result (no token left). -/
def strtok (s : List Char) : Option (CStr × List Char) :=
  match skipDelims s with
  | [] => none
  | c :: cs => some (scanToken (c :: cs))

/-- The sequence of results of the successive `strtok` calls on a line, up to the
first `NULL`. The fuel bounds the number of calls. -/
def strtokAll : Nat → List Char → List CStr
  | 0, _ => []
  | fuel + 1, s =>
    match strtok s with
    | none => []
    | some (tok, rest) => tok :: strtokAll fuel rest

/-- All tokens of a line; a line of length `n` has fewer than `n + 1` tokens. -/
def tokenize (line : List Char) : List CStr := strtokAll (line.length + 1) line

/-! ## `parse_command` -/

/-- The `Command` struct of `command.h`. `args` holds the entries of the array
before its first `NULL`; `next` is the address of the next node. -/
structure Command where
  args : List CStr
  input_file : Option CStr
  output_file : Option CStr
  append : Bool
  next : Option Nat
deriving DecidableEq, Repr

/-- A node as returned by `calloc(1, sizeof(Command))`: all fields zero. -/
def zeroCommand : Command :=
  { args := [], input_file := none, output_file := none, append := false, next := none }

/-- The scan `while (current_cmd->args[arg_pos] != NULL) arg_pos++;`. When the
`MAX_ARGS` entries of the array are all set the scan goes on into the fields
that follow it: entry `MAX_ARGS` is `input_file`, entry `MAX_ARGS + 1` is
`output_file`. The result is `none` when these are set too and the scan reaches
the storage of `append`. -/
def argPos (c : Command) : Option Nat :=
  if c.args.length < MAX_ARGS then some c.args.length
  else if c.input_file = none then some MAX_ARGS
  else if c.output_file = none then some (MAX_ARGS + 1)
  else none

/-- The scan followed by the two stores `args[arg_pos] = part;` and
`args[arg_pos + 1] = NULL;`, which have no bound test. With `arg_pos` equal to
`MAX_ARGS - 1` the `NULL` goes to `input_file`; with `MAX_ARGS` the argument
goes to `input_file` and the `NULL` to `output_file`; with `MAX_ARGS + 1` the
argument goes to `output_file` and the `NULL` clears `append`. -/
def storeArg (c : Command) (part : CStr) : Option Command :=
  match argPos c with
  | none => none
  | some arg_pos =>
    if arg_pos + 1 < MAX_ARGS then some { c with args := c.args ++ [part] }
    else if arg_pos < MAX_ARGS then some { c with args := c.args ++ [part], input_file := none }
    else if arg_pos = MAX_ARGS then some { c with input_file := some part, output_file := none }
    else some { c with output_file := some part, append := false }

/-- The token `|`. -/
def tokPipe : CStr := ['|']
/-- The token `<`. -/
def tokLt : CStr := ['<']
/-- The token `>`. -/
def tokGt : CStr := ['>']
/-- The token `>>`. -/
def tokGtGt : CStr := ['>', '>']

/-- The local variables of `parse_command` together with the heap of nodes and
the caller's `*cmd_head`. -/
structure PState where
  heap : List Command
  cmd_head : Option Nat
  current_cmd : Option Nat
  input_count : Nat
  output_count : Nat
  has_pipe : Bool
deriving DecidableEq, Repr

/-- State on entry: `execute_line` passes `cmd_head = NULL`; no node exists. -/
def PState.init : PState :=
  { heap := [], cmd_head := none, current_cmd := none,
    input_count := 0, output_count := 0, has_pipe := false }

/-- The linked list that starts at a pointer, read by following `next`. -/
def chain (heap : List Command) : Nat → Option Nat → List Command
  | 0, _ => []
  | _ + 1, none => []
  | fuel + 1, some i =>
    match heap[i]? with
    | none => []
    | some c => c :: chain heap fuel c.next

/-- The pipeline the caller finds in `*cmd_head`. -/
def PState.pipeline (st : PState) : List Command :=
  chain st.heap st.heap.length st.cmd_head

/-- Outcome of `parse_command`: `ok` is `return 0` with the pipeline left in
`*cmd_head`, `invalid` is `return -1`, `fault` is undefined behaviour. -/
inductive PResult where
  | ok (p : List Command)
  | invalid
  | fault
deriving DecidableEq, Repr

/-- The code after the token loop of `parse_command`. -/
def parseEnd (st : PState) : PResult :=
  match st.current_cmd with
  | none => .invalid
  | some cur =>
    match st.heap[cur]? with
    | none => .fault
    | some c =>
      if c.args = [] then .invalid
      else if st.input_count > 1 || st.output_count > 1 then .invalid
      else .ok st.pipeline

/-- The token loop of `parse_command`; the first argument is what the remaining
`strtok` calls will return. -/
def parseLoop : List CStr → PState → PResult
  | [], st => parseEnd st
  | part :: rest, st =>
    if part = tokPipe then
      match st.current_cmd with
      | none => .invalid
      | some cur =>
        match st.heap[cur]? with
        | none => .fault
        | some c =>
          if c.args = [] then .invalid
          else
            let fresh := st.heap.length
            parseLoop rest
              { st with
                heap := (st.heap.set cur { c with next := some fresh }) ++ [zeroCommand],
                current_cmd := some fresh,
                has_pipe := true }
    else if part = tokLt then
      match rest with
      | [] => .invalid
      | file :: rest2 =>
        if st.input_count > 0 || (st.has_pipe && st.current_cmd != st.cmd_head) then .invalid
        else
          match st.current_cmd with
          | none => .fault
          | some cur =>
            match st.heap[cur]? with
            | none => .fault
            | some c =>
              parseLoop rest2
                { st with
                  heap := st.heap.set cur { c with input_file := some file },
                  input_count := st.input_count + 1 }
    else if part = tokGt || part = tokGtGt then
      let is_append : Bool := part = tokGtGt
      match rest with
      | [] => .invalid
      | file :: rest2 =>
        if st.output_count > 0 then .invalid
        else
          match st.current_cmd with
          | none => .fault
          | some cur =>
            match st.heap[cur]? with
            | none => .fault
            | some c =>
              if st.has_pipe && c.next != none then .invalid
              else
                parseLoop rest2
                  { st with
                    heap := st.heap.set cur
                      { c with output_file := some file, append := is_append },
                    output_count := st.output_count + 1 }
    else
      let st1 : PState :=
        match st.current_cmd with
        | none =>
          { st with heap := st.heap ++ [zeroCommand],
                    current_cmd := some st.heap.length,
                    cmd_head := some st.heap.length }
        | some _ => st
      match st1.current_cmd with
      | none => .fault
      | some cur =>
        match st1.heap[cur]? with
        | none => .fault
        | some c =>
          match storeArg c part with
          | none => .fault
          | some c1 => parseLoop rest { st1 with heap := st1.heap.set cur c1 }

/-- `parse_command(line, &cmd_head)` with `cmd_head == NULL` on entry. -/
def parse_command (line : List Char) : PResult :=
  parseLoop (tokenize line) PState.init

/-! ## Job table (`job.c`) -/

/-- The `Job` struct of `job.h`; `cmdline` is the string held in the
`char[MAX_CMD_LENGTH]` buffer. -/
structure Job where
  pid : Int
  cmdline : CStr
deriving DecidableEq, Repr

/-- `strncpy(dst, src, n)` into a buffer of `n` bytes, read back as a string. -/
def strncpy (src : CStr) (n : Nat) : CStr := src.take n

/-- `add_job`: the table is the live part `jobs[0 .. job_count)` of the global
array, so `job_count` is its length. -/
def add_job (jobs : List Job) (pid : Int) (cmdline : CStr) : List Job :=
  if jobs.length < MAX_JOBS then
    jobs ++ [{ pid := pid, cmdline := strncpy cmdline MAX_CMD_LENGTH }]
  else jobs

/-- Inner loop of `remove_job`: `for (j = i; j < job_count - 1; j++) jobs[j] = jobs[j + 1];`
The first argument counts the iterations left. -/
def shiftDown : Nat → Nat → List Job → List Job
  | 0, _, jobs => jobs
  | n + 1, j, jobs =>
    match jobs[j + 1]? with
    | none => jobs
    | some x => shiftDown n (j + 1) (jobs.set j x)

/-- Outer loop of `remove_job`, from index `i`; the first argument counts the
iterations left. On the first match the tail is shifted down, `job_count` is
decremented and the loop breaks. -/
def removeJobFrom : Nat → Nat → Int → List Job → List Job
  | 0, _, _, jobs => jobs
  | n + 1, i, pid, jobs =>
    match jobs[i]? with
    | none => jobs
    | some job =>
      if job.pid = pid then
        (shiftDown (jobs.length - 1 - i) i jobs).take (jobs.length - 1)
      else removeJobFrom n (i + 1) pid jobs

/-- `remove_job(pid)`. -/
def remove_job (jobs : List Job) (pid : Int) : List Job :=
  removeJobFrom jobs.length 0 pid jobs

/-! ## Observable behaviour -/

/-- The messages of `error_handling.c`. -/
inductive ErrorKind where
  | invalid_command
  | invalid_program
  | invalid_file
  | invalid_directory
  | invalid_job
  | suspended_jobs
deriving DecidableEq, Repr

/-- What a descriptor refers to. -/
inductive Res where
  | tty (n : Nat)
  | in_file (path : CStr)
  | out_file (path : CStr) (append : Bool)
  | pipe_read (id : Nat)
  | pipe_write (id : Nat)
deriving DecidableEq, Repr

/-- A forked child as it stands just before `execv`: what its descriptors 0 and 1
refer to. `started` is false when the child gave up on its output file. -/
structure Child where
  stage : Nat
  pid : Int
  argv : List CStr
  stdin : Option Res
  stdout : Option Res
  started : Bool
deriving DecidableEq, Repr

/-- The system calls and messages of the shell process, in program order.
`kill_cont` records the job table as it is when the signal is sent. -/
inductive Event where
  | error (k : ErrorKind)
  | perror_kill
  | perror_pipe
  | perror_fork
  | chdir (path : CStr)
  | print_job (index : Nat) (cmdline : CStr)
  | kill_cont (pid : Int) (table : List Job)
  | waitpid (pid : Int)
  | fork (child : Child)
deriving DecidableEq, Repr

/-- Status stored by `waitpid(pid, &status, WUNTRACED)`. -/
inductive WaitStatus where
  | exited
  | signaled
  | stopped
deriving DecidableEq, Repr

/-- `WIFSTOPPED(status)`. -/
def WIFSTOPPED (s : WaitStatus) : Bool :=
  match s with
  | .stopped => true
  | _ => false

/-- Answers of the operating system. `pipe_ok k` and `fork_pid k` are the results
of the `pipe` and `fork` calls made for stage `k`; `wait_status i` is the status
stored by the `i`-th `waitpid` of the final loop of `execute_commands`. -/
structure Env where
  chdir_ok : CStr → Bool
  kill_ok : Int → Bool
  fg_status : WaitStatus
  open_ok : CStr → Bool
  create_ok : CStr → Bool
  pipe_ok : Nat → Bool
  fork_pid : Nat → Option Int
  wait_status : Nat → WaitStatus

/-- State of the shell process after a call: job table, what it did, and the
status passed to `exit` if it terminated. -/
structure Outcome where
  jobs : List Job
  events : List Event
  exit_status : Option Int
deriving DecidableEq, Repr

/-- A call either returns (or exits) with an outcome or has undefined behaviour. -/
inductive Result where
  | done (o : Outcome)
  | fault
deriving DecidableEq, Repr

/-! ## Built-in commands (`execution.c`) -/

/-- The C library `isspace` in the C locale. -/
def isspace (c : Char) : Bool := c.toNat = 32 || (9 ≤ c.toNat && c.toNat ≤ 13)

/-- The C library `isdigit`. -/
def isdigit (c : Char) : Bool := 48 ≤ c.toNat && c.toNat ≤ 57

/-- Value of the longest run of leading decimal digits, continuing `acc`. -/
def digitsVal : List Char → Int → Int
  | [], acc => acc
  | c :: cs, acc => if isdigit c then digitsVal cs (acc * 10 + ((c.toNat : Int) - 48)) else acc

/-- The number a string starts with: leading white space, an optional sign, then
the longest run of digits; whatever follows is ignored. -/
def signedDigits (s : CStr) : Int :=
  match s.dropWhile isspace with
  | '-' :: r => - digitsVal r 0
  | '+' :: r => digitsVal r 0
  | r => digitsVal r 0

/-- `LONG_MAX` of a 64-bit `long`. -/
def LONG_MAX : Int := 9223372036854775807

/-- `LONG_MIN` of a 64-bit `long`. -/
def LONG_MIN : Int := -9223372036854775808

/-- The C library `strtol(s, NULL, 10)`: a value out of the range of `long` is
replaced by `LONG_MAX` or `LONG_MIN`. -/
def strtol (s : CStr) : Int :=
  if signedDigits s > LONG_MAX then LONG_MAX
  else if signedDigits s < LONG_MIN then LONG_MIN
  else signedDigits s

/-- Conversion of a `long` to the 32-bit `int`: the low 32 bits, read as a
signed number. -/
def toInt32 (v : Int) : Int := (v + 2147483648) % 4294967296 - 2147483648

/-- The C library `atoi`, which is `(int) strtol(s, NULL, 10)`; its value is what
`int index = atoi(...)` holds. -/
def atoi (s : CStr) : Int := toInt32 (strtol s)

/-- The name `cd`. -/
def nameCd : CStr := ['c', 'd']
/-- The name `exit`. -/
def nameExit : CStr := ['e', 'x', 'i', 't']
/-- The name `jobs`. -/
def nameJobs : CStr := ['j', 'o', 'b', 's']
/-- The name `fg`. -/
def nameFg : CStr := ['f', 'g']

/-- `is_builtin`; `none` when `args[0]` is `NULL` (the `strcmp` is undefined). -/
def is_builtin (cmd : Command) : Option Bool :=
  match cmd.args with
  | [] => none
  | cmdname :: _ =>
    some (cmdname = nameCd || cmdname = nameExit || cmdname = nameJobs || cmdname = nameFg)

/-- Events of `print_jobs`, numbering from `i + 1`. -/
def printJobsFrom : Nat → List Job → List Event
  | _, [] => []
  | i, j :: rest => Event.print_job (i + 1) j.cmdline :: printJobsFrom (i + 1) rest

/-- `print_jobs`. -/
def print_jobs (jobs : List Job) : List Event := printJobsFrom 0 jobs

/-- `execute_builtin(cmd)` on the job table `jobs`. -/
def execute_builtin (env : Env) (jobs : List Job) (cmd : Command) : Result :=
  match cmd.args with
  | [] => .fault
  | cmdname :: _ =>
    let arg_count := cmd.args.length
    if cmdname = nameCd then
      if arg_count ≠ 2 then
        .done { jobs := jobs, events := [.error .invalid_command], exit_status := none }
      else
        let path := cmd.args.getD 1 []
        if env.chdir_ok path then
          .done { jobs := jobs, events := [.chdir path], exit_status := none }
        else
          .done { jobs := jobs, events := [.chdir path, .error .invalid_directory],
                  exit_status := none }
    else if cmdname = nameExit then
      if arg_count ≠ 1 then
        .done { jobs := jobs, events := [.error .invalid_command], exit_status := none }
      else if jobs.length > 0 then
        .done { jobs := jobs, events := [.error .suspended_jobs], exit_status := none }
      else
        .done { jobs := jobs, events := [], exit_status := some 0 }
    else if cmdname = nameJobs then
      if arg_count ≠ 1 then
        .done { jobs := jobs, events := [.error .invalid_command], exit_status := none }
      else
        .done { jobs := jobs, events := print_jobs jobs, exit_status := none }
    else if cmdname = nameFg then
      if arg_count ≠ 2 then
        .done { jobs := jobs, events := [.error .invalid_command], exit_status := none }
      else
        let index := atoi (cmd.args.getD 1 [])
        if index < 1 || index > (jobs.length : Int) then
          .done { jobs := jobs, events := [.error .invalid_job], exit_status := none }
        else
          match jobs[(index - 1).toNat]? with
          | none => .fault
          | some job =>
            let pid := job.pid
            let cmdline := strncpy job.cmdline MAX_CMD_LENGTH
            let jobs1 := remove_job jobs pid
            let ev_kill : List Event :=
              if env.kill_ok pid then [.kill_cont pid jobs1]
              else [.kill_cont pid jobs1, .perror_kill]
            let jobs2 := if WIFSTOPPED env.fg_status then add_job jobs1 pid cmdline else jobs1
            .done { jobs := jobs2, events := ev_kill ++ [.waitpid pid], exit_status := none }
    else
      .done { jobs := jobs, events := [], exit_status := none }

/-! ## Pipeline executor (`execution.c`) -/

/-- The descriptor table of a process: entry `n` is what descriptor `n` refers
to, `none` when it is closed. -/
abbrev FdTable := List (Option Res)

/-- The table of the shell before it runs a line: only 0, 1 and 2 are open. -/
def shellFds : FdTable := [some (.tty 0), some (.tty 1), some (.tty 2)]

/-- What a descriptor refers to; `none` for a closed or negative descriptor. -/
def fdLookup (t : FdTable) (fd : Int) : Option Res :=
  if fd < 0 then none
  else
    match t[fd.toNat]? with
    | some r => r
    | none => none

/-- The lowest descriptor number that is not open. -/
def lowestFree : FdTable → Nat
  | [] => 0
  | none :: _ => 0
  | some _ :: t => lowestFree t + 1

/-- Overwrite entry `n` of the table, growing it when needed. -/
def fdPut : FdTable → Nat → Option Res → FdTable
  | [], 0, r => [r]
  | [], n + 1, r => none :: fdPut [] n r
  | _ :: t, 0, r => r :: t
  | x :: t, n + 1, r => x :: fdPut t n r

/-- Allocation by `open` or by one end of `pipe`: the lowest free descriptor. -/
def fdAlloc (t : FdTable) (r : Res) : Int × FdTable :=
  ((lowestFree t : Int), fdPut t (lowestFree t) (some r))

/-- `close(fd)`: fails without effect on a descriptor that is not open. -/
def fdClose (t : FdTable) (fd : Int) : FdTable :=
  match fdLookup t fd with
  | none => t
  | some _ => fdPut t fd.toNat none

/-- `dup2(oldfd, newfd)`: fails without effect when `oldfd` is not open. -/
def fdDup2 (t : FdTable) (oldfd newfd : Int) : FdTable :=
  match fdLookup t oldfd with
  | none => t
  | some r => if newfd < 0 then t else fdPut t newfd.toNat (some r)

/-- The local variables of `execute_commands` that live across iterations,
with the shell's descriptor table and what it has done so far. -/
structure XState where
  fds : FdTable
  input_fd : Int
  prev_fd : Int
  pids : List Int
  events : List Event
deriving DecidableEq, Repr

/-- The `pid == 0` branch up to the program lookup: the child's copy of the
table after its `dup2` and `close` calls, and whether it got that far. `fd0` and
`fd1` are `fd[0]` and `fd[1]`. -/
def childFds (env : Env) (cmd : Command) (x : XState) (fd0 fd1 : Int) : FdTable × Bool :=
  let t1 : FdTable :=
    if cmd.input_file ≠ none then fdClose (fdDup2 x.fds x.input_fd 0) x.input_fd
    else if x.prev_fd ≠ -1 then fdClose (fdDup2 x.fds x.prev_fd 0) x.prev_fd
    else x.fds
  let closePrev (t : FdTable) : FdTable := if x.prev_fd ≠ -1 then fdClose t x.prev_fd else t
  match cmd.next with
  | none =>
    match cmd.output_file with
    | some path =>
      if env.create_ok path then
        let a := fdAlloc t1 (.out_file path cmd.append)
        (closePrev (fdClose (fdDup2 a.2 a.1 1) a.1), true)
      else (t1, false)
    | none => (closePrev t1, true)
  | some _ => (closePrev (fdClose (fdClose (fdDup2 t1 fd1 1) fd0) fd1), true)

/-- How the `while (cmd != NULL)` loop of `execute_commands` ends: it runs to the
end, or the function returns from inside it, or a store goes past `pids`. -/
inductive LoopResult where
  | finished (x : XState)
  | returned (x : XState)
  | fault
deriving DecidableEq, Repr

/-- The `while (cmd != NULL)` loop of `execute_commands` over the nodes of the
pipeline; the stage number of a node is `pid_count` when it is reached. -/
def execLoop (env : Env) : List Command → XState → LoopResult
  | [], x => .finished x
  | cmd :: rest, x =>
    let k := x.pids.length
    let opened : Option XState :=
      match cmd.input_file with
      | none => some x
      | some path =>
        if env.open_ok path then
          let a := fdAlloc x.fds (.in_file path)
          some { x with fds := a.2, input_fd := a.1 }
        else none
    match opened with
    | none =>
      .returned
        { x with events := x.events ++ [.error .invalid_file],
                 fds := if x.prev_fd ≠ -1 then fdClose x.fds x.prev_fd else x.fds }
    | some x1 =>
      let piped : Option (XState × Int × Int) :=
        match cmd.next with
        | none => some (x1, -1, -1)
        | some _ =>
          if env.pipe_ok k then
            let a0 := fdAlloc x1.fds (.pipe_read k)
            let a1 := fdAlloc a0.2 (.pipe_write k)
            some ({ x1 with fds := a1.2 }, a0.1, a1.1)
          else none
      match piped with
      | none => .returned { x1 with events := x1.events ++ [.perror_pipe] }
      | some (x2, fd0, fd1) =>
        match env.fork_pid k with
        | none => .returned { x2 with events := x2.events ++ [.perror_fork] }
        | some pid =>
          let ct := childFds env cmd x2 fd0 fd1
          let child : Child :=
            { stage := k, pid := pid, argv := cmd.args,
              stdin := fdLookup ct.1 0, stdout := fdLookup ct.1 1, started := ct.2 }
          if MAX_ARGS ≤ x2.pids.length then .fault
          else
            let t1 := if x2.prev_fd ≠ -1 then fdClose x2.fds x2.prev_fd else x2.fds
            let t2 := if x2.input_fd ≠ -1 then fdClose t1 x2.input_fd else t1
            let x3 : XState :=
              match cmd.next with
              | none =>
                { x2 with fds := t2, pids := x2.pids ++ [pid],
                          events := x2.events ++ [.fork child] }
              | some _ =>
                { x2 with fds := fdClose t2 fd1, prev_fd := fd0, pids := x2.pids ++ [pid],
                          events := x2.events ++ [.fork child] }
            execLoop env rest x3

/-- The final loop of `execute_commands`: wait for `pids[i]`, `pids[i + 1]`, ...
and register the stopped ones. -/
def waitLoop (env : Env) (cmdline : CStr) : Nat → List Int → List Job → List Job × List Event
  | _, [], jobs => (jobs, [])
  | i, pid :: rest, jobs =>
    let jobs1 := if WIFSTOPPED (env.wait_status i) then add_job jobs pid cmdline else jobs
    let r := waitLoop env cmdline (i + 1) rest jobs1
    (r.1, Event.waitpid pid :: r.2)

/-- State of `execute_commands` on entry. -/
def XState.init : XState :=
  { fds := shellFds, input_fd := -1, prev_fd := -1, pids := [], events := [] }

/-- `execute_commands(cmd_head, cmdline)` on the job table `jobs`. -/
def execute_commands (env : Env) (jobs : List Job) (cmd_head : List Command)
    (cmdline : CStr) : Result :=
  match execLoop env cmd_head XState.init with
  | .fault => .fault
  | .returned x => .done { jobs := jobs, events := x.events, exit_status := none }
  | .finished x =>
    let r := waitLoop env cmdline 0 x.pids jobs
    .done { jobs := r.1, events := x.events ++ r.2, exit_status := none }

/-- The body of `execute_line` after the call of `parse_command`, given what
that call returned; `line_copy` is the copy of the line taken before parsing. -/
def afterParse (env : Env) (jobs : List Job) (line_copy : CStr) : PResult → Result
  | .fault => .fault
  | .invalid => .done { jobs := jobs, events := [.error .invalid_command], exit_status := none }
  | .ok p =>
    match p with
    | [] => .done { jobs := jobs, events := [], exit_status := none }
    | cmd_head :: _ =>
      match is_builtin cmd_head with
      | none => .fault
      | some true =>
        if cmd_head.next ≠ none || cmd_head.input_file ≠ none || cmd_head.output_file ≠ none then
          .done { jobs := jobs, events := [.error .invalid_command], exit_status := none }
        else execute_builtin env jobs cmd_head
      | some false => execute_commands env jobs p line_copy

/-- `execute_line(line)` on the job table `jobs`. -/
def execute_line (env : Env) (jobs : List Job) (line : CStr) : Result :=
  afterParse env jobs (strncpy line MAX_CMD_LENGTH) (parse_command line)

/-- The children forked during a call, in order. -/
def forkedChildren : List Event → List Child
  | [] => []
  | .fork c :: es => c :: forkedChildren es
  | _ :: es => forkedChildren es

/-- An operating system on which every call succeeds, stage `k` gets pid
`100 + k`, and every process waited for has exited. -/
def envAllOk : Env :=
  { chdir_ok := fun _ => true, kill_ok := fun _ => true, fg_status := .exited,
    open_ok := fun _ => true, create_ok := fun _ => true, pipe_ok := fun _ => true,
    fork_pid := fun k => some (100 + (k : Int)), wait_status := fun _ => .exited }

/-! ## Reading a line as items

The grammar of the parser rules: a line is a sequence of items, where the token
after a redirection operator is that operator's file operand whatever it is. -/

/-- One item of a line: a pipe separator, a redirection operator with its
operand (`none` when the operator is the last token), or a plain argument. -/
inductive Item where
  | pipe
  | redirIn (file : Option CStr)
  | redirOut (append : Bool) (file : Option CStr)
  | word (w : CStr)
deriving DecidableEq, Repr

/-- The items of a token sequence, read left to right. -/
def classify : List CStr → List Item
  | [] => []
  | part :: rest =>
    if part = tokPipe then .pipe :: classify rest
    else if part = tokLt then
      match rest with
      | [] => [.redirIn none]
      | file :: rest2 => .redirIn (some file) :: classify rest2
    else if part = tokGt || part = tokGtGt then
      match rest with
      | [] => [.redirOut (decide (part = tokGtGt)) none]
      | file :: rest2 => .redirOut (decide (part = tokGtGt)) (some file) :: classify rest2
    else .word part :: classify rest

/-- The items of a line. -/
def lineItems (line : List Char) : List Item := classify (tokenize line)

/-- Whether some stage of the item sequence has no plain argument; the flag tells
whether the stage being read already has one. -/
def hasEmptyStage : Bool → List Item → Bool
  | hasWord, [] => !hasWord
  | hasWord, .pipe :: rest => !hasWord || hasEmptyStage false rest
  | _, .word _ :: rest => hasEmptyStage true rest
  | hasWord, .redirIn _ :: rest => hasEmptyStage hasWord rest
  | hasWord, .redirOut _ _ :: rest => hasEmptyStage hasWord rest

/-- Number of `<` operators among the items. -/
def countIn : List Item → Nat
  | [] => 0
  | .redirIn _ :: rest => countIn rest + 1
  | _ :: rest => countIn rest

/-- Number of `>` and `>>` operators among the items. -/
def countOut : List Item → Nat
  | [] => 0
  | .redirOut _ _ :: rest => countOut rest + 1
  | _ :: rest => countOut rest

/-- Whether a `<` operator occurs after a pipe separator; the flag tells whether
a pipe has been read. -/
def inAfterPipe : Bool → List Item → Bool
  | _, [] => false
  | _, .pipe :: rest => inAfterPipe true rest
  | seen, .redirIn _ :: rest => seen || inAfterPipe seen rest
  | seen, _ :: rest => inAfterPipe seen rest

/-! ## The parser on items

The same loop over the list of stages instead of the heap: `prev` are the
stages that already have a successor, `cur` is the node `current_cmd` points to. -/

/-- Parser state with the heap read as a list of stages. -/
structure AState where
  prev : List Command
  cur : Option Command
  input_count : Nat
  output_count : Nat
  has_pipe : Bool
deriving DecidableEq, Repr

/-- The heap state an item-level state stands for. -/
def AState.conc (a : AState) : PState :=
  { heap := a.prev ++ a.cur.toList,
    cmd_head := if a.prev ++ a.cur.toList = [] then none else some 0,
    current_cmd := a.cur.map (fun _ => a.prev.length),
    input_count := a.input_count,
    output_count := a.output_count,
    has_pipe := a.has_pipe }

/-- Initial item-level state. -/
def AState.init : AState :=
  { prev := [], cur := none, input_count := 0, output_count := 0, has_pipe := false }

/-- The code after the loop, on the item-level state. -/
def absEnd (a : AState) : PResult :=
  match a.cur with
  | none => .invalid
  | some c =>
    if c.args = [] then .invalid
    else if a.input_count > 1 || a.output_count > 1 then .invalid
    else .ok (a.prev ++ [c])

/-- The token loop, one item at a time, on the item-level state. -/
def absLoop : List Item → AState → PResult
  | [], a => absEnd a
  | .pipe :: rest, a =>
    match a.cur with
    | none => .invalid
    | some c =>
      if c.args = [] then .invalid
      else
        absLoop rest
          ⟨a.prev ++ [{ c with next := some (a.prev.length + 1) }], some zeroCommand,
            a.input_count, a.output_count, true⟩
  | .redirIn none :: _, _ => .invalid
  | .redirIn (some file) :: rest, a =>
    if a.input_count > 0 || (a.has_pipe && !a.prev.isEmpty) then .invalid
    else
      match a.cur with
      | none => .fault
      | some c =>
        absLoop rest
          ⟨a.prev, some { c with input_file := some file }, a.input_count + 1,
            a.output_count, a.has_pipe⟩
  | .redirOut _ none :: _, _ => .invalid
  | .redirOut app (some file) :: rest, a =>
    if a.output_count > 0 then .invalid
    else
      match a.cur with
      | none => .fault
      | some c =>
        absLoop rest
          ⟨a.prev, some { c with output_file := some file, append := app }, a.input_count,
            a.output_count + 1, a.has_pipe⟩
  | .word w :: rest, a =>
    match storeArg (a.cur.getD zeroCommand) w with
    | none => .fault
    | some c1 => absLoop rest ⟨a.prev, some c1, a.input_count, a.output_count, a.has_pipe⟩

/-- Shape of the item-level states the loop goes through. -/
structure AInv (a : AState) : Prop where
  cur_none : a.cur = none → a.prev = []
  cur_next : ∀ c, a.cur = some c → c.next = none
  pipe : a.prev ≠ [] → a.has_pipe = true
  linked : ∀ i c, a.prev[i]? = some c → c.next = some (i + 1)

/-- What holds of the stages of the item-level states the loop goes through:
every stage that has a successor has an argument, and a stage behind the first
has an input file only when its `args` array is full. -/
structure AGood (a : AState) : Prop where
  args : ∀ c ∈ a.prev, c.args ≠ []
  inp_prev : ∀ c ∈ a.prev.tail, c.input_file = none ∨ MAX_ARGS ≤ c.args.length
  inp_cur : a.prev ≠ [] → ∀ c, a.cur = some c → c.input_file = none ∨ MAX_ARGS ≤ c.args.length
  pipe : a.prev ≠ [] → a.has_pipe = true

/-- Whether the stage under construction already has an argument. -/
def curHasWord (a : AState) : Bool :=
  match a.cur with
  | some c => !c.args.isEmpty
  | none => false

/-! ## Lines of plain tokens -/

/-- A line written out: a leading run of separators, then each token followed
by its run of separators. -/
def joinLine (lead : List Char) (toks : List (CStr × List Char)) : List Char :=
  lead ++ (toks.map (fun p => p.1 ++ p.2)).flatten

/-- Whether a token is one of `|`, `<`, `>`, `>>`. -/
def isOperator (t : CStr) : Bool := t = tokPipe || t = tokLt || t = tokGt || t = tokGtGt

/-- Every run of separators between two tokens is non-empty. -/
def gapsOk : List (CStr × List Char) → Bool
  | [] => true
  | [_] => true
  | p :: q :: r => !p.2.isEmpty && gapsOk (q :: r)

/-- The line `joinLine lead toks` is made of plain tokens separated by runs of
the separator characters `sep`: the runs hold separators only, the tokens are
non-empty, hold no separator and are not operators. -/
def plainLine (sep : Char → Bool) (lead : List Char) (toks : List (CStr × List Char)) : Bool :=
  lead.all sep &&
  toks.all (fun p => !p.1.isEmpty && p.1.all (fun c => !sep c) && !isOperator p.1 && p.2.all sep) &&
  gapsOk toks

/-- White space in the sense of a space or a tab. -/
def isBlank (c : Char) : Bool := c = ' ' || c.toNat = 9

/-- The single stage whose arguments are the given tokens, with no redirection. -/
def plainStage (args : List CStr) : Command :=
  { args := args, input_file := none, output_file := none, append := false, next := none }

/-- What a call did; nothing is recorded for undefined behaviour. -/
def Result.events : Result → List Event
  | .done o => o.events
  | .fault => []

/-- The decimal numeral of a natural number, most significant digit first
(empty for 0). -/
def decimal (k : Nat) : CStr :=
  ((Nat.digits 10 k).reverse).map (fun d => Char.ofNat (48 + d))

/-! ## Jobs registered by a pipeline -/

/-- The pids of the first `n` stages, as `fork` returns them. -/
def forkPids (env : Env) (n : Nat) : List Int :=
  (List.range n).map (fun i => (env.fork_pid i).getD 0)

/-- One entry `(pid, line)` for each stage whose wait status is stopped, in
stage order; `status i` is the status of stage `i`. -/
def stoppedEntries (status : Nat → WaitStatus) (line : CStr) (pids : List Int) : List Job :=
  ((pids.enum).filter (fun ip => WIFSTOPPED (status ip.1))).map
    (fun ip => { pid := ip.2, cmdline := line })

/-- The number of stages of the pipeline when the parse succeeded. -/
def stageCount : PResult → Option Nat
  | .ok p => some p.length
  | _ => none

/-- The line `a | a | ... | a` of 101 stages, 401 characters long. -/
def line101 : List Char := (List.replicate 100 ['a', ' ', '|', ' ']).flatten ++ ['a']

/-- An operating system like `envAllOk` on which the first process waited for
has stopped. -/
def envFirstStopped : Env :=
  { envAllOk with wait_status := fun i => if i = 0 then .stopped else .exited }

/-- The input file of each stage of the pipeline when the parse succeeded. -/
def inputFiles : PResult → Option (List (Option CStr))
  | .ok p => some (p.map (fun c => c.input_file))
  | _ => none

/-- The line `a | b x x ... x` whose second stage has 101 arguments (`b` and
100 times `x`), 205 characters long. -/
def lineArgs101 : List Char :=
  ['a', ' ', '|', ' ', 'b'] ++ (List.replicate 100 [' ', 'x']).flatten

/-! ## The stores of an argument -/

theorem storeArg_eq (c : Command) (w : CStr) :
    storeArg c w =
      if c.args.length + 1 < MAX_ARGS then some { c with args := c.args ++ [w] }
      else if c.args.length < MAX_ARGS then
        some { c with args := c.args ++ [w], input_file := none }
      else if c.input_file = none then
        some { c with input_file := some w, output_file := none }
      else if c.output_file = none then
        some { c with output_file := some w, append := false }
      else none := by
  unfold storeArg argPos
  by_cases h1 : c.args.length + 1 < MAX_ARGS
  · have h2 : c.args.length < MAX_ARGS := by omega
    simp only [h1, h2, if_true]
  · by_cases h2 : c.args.length < MAX_ARGS
    · simp only [h1, h2, if_true, if_false]
    · by_cases h3 : c.input_file = none
      · have e1 : ¬ (MAX_ARGS + 1 < MAX_ARGS) := by omega
        have e2 : ¬ (MAX_ARGS < MAX_ARGS) := by omega
        simp only [h1, h2, h3, e1, e2, if_true, if_false]
      · by_cases h4 : c.output_file = none
        · have e1 : ¬ (MAX_ARGS + 1 + 1 < MAX_ARGS) := by omega
          have e2 : ¬ (MAX_ARGS + 1 < MAX_ARGS) := by omega
          have e3 : ¬ (MAX_ARGS + 1 = MAX_ARGS) := by omega
          simp only [h1, h2, h3, h4, e1, e2, e3, if_true, if_false]
        · simp only [h1, h2, h3, h4, if_false]

theorem storeArg_below (c : Command) (w : CStr) (h : c.args.length + 1 < MAX_ARGS) :
    storeArg c w = some { c with args := c.args ++ [w] } := by
  rw [storeArg_eq]
  simp only [h, if_true]

theorem storeArg_next (c c1 : Command) (w : CStr) (h : storeArg c w = some c1) :
    c1.next = c.next := by
  rw [storeArg_eq] at h
  split_ifs at h <;> injection h with h <;> subst h <;> rfl

theorem storeArg_args_ne (c c1 : Command) (w : CStr) (h : storeArg c w = some c1) :
    c1.args ≠ [] := by
  have hm : 0 < MAX_ARGS := by decide
  rw [storeArg_eq] at h
  split_ifs at h with h1 h2 h3 h4 <;> injection h with h <;> subst h
  · simp
  · simp
  · intro hh
    simp only at hh
    rw [hh] at h2
    exact h2 hm
  · intro hh
    simp only at hh
    rw [hh] at h2
    exact h2 hm

theorem storeArg_inp (c c1 : Command) (w : CStr) (h : storeArg c w = some c1)
    (hc : c.input_file = none ∨ MAX_ARGS ≤ c.args.length) :
    c1.input_file = none ∨ MAX_ARGS ≤ c1.args.length := by
  rw [storeArg_eq] at h
  split_ifs at h with h1 h2 h3 h4 <;> injection h with h <;> subst h
  · rcases hc with hc | hc
    · exact Or.inl hc
    · omega
  · exact Or.inl rfl
  · right
    show MAX_ARGS ≤ c.args.length
    omega
  · right
    show MAX_ARGS ≤ c.args.length
    omega

/-! ## The heap-level parser computes the item-level parser -/

theorem chain_linked (l : List Command) (c : Command) (hc : c.next = none)
    (hl : ∀ i d, l[i]? = some d → d.next = some (i + 1)) :
    ∀ (k fuel : Nat), k ≤ l.length → l.length + 1 ≤ fuel + k →
      chain (l ++ [c]) fuel (some k) = (l ++ [c]).drop k := by
  intro k fuel
  induction fuel generalizing k with
  | zero =>
    intro h1 h2
    omega
  | succ n ih =>
    intro h1 h2
    rcases Nat.lt_or_ge k l.length with hk | hk
    · have hget : (l ++ [c])[k]? = some (l[k]) := by
        rw [List.getElem?_append_left hk]; simp [hk]
      have hn := hl k (l[k]) (by simp [hk])
      simp only [chain, hget, hn]
      rw [ih (k + 1) (by omega) (by omega)]
      have hlt : k < (l ++ [c]).length := by simp; omega
      rw [List.drop_eq_getElem_cons hlt, List.getElem_append_left hk]
    · have hk2 : k = l.length := by omega
      subst hk2
      simp [chain, hc]
      cases n <;> simp [chain]

theorem pipeline_conc (a : AState) (h : AInv a) (c : Command) (hc : a.cur = some c) :
    a.conc.pipeline = a.prev ++ [c] := by
  have h1 := chain_linked a.prev c (h.cur_next c hc) h.linked 0 (a.prev.length + 1)
    (Nat.zero_le _) (by omega)
  simp [PState.pipeline, AState.conc, hc, h1]

theorem parseEnd_conc (a : AState) (h : AInv a) : parseEnd a.conc = absEnd a := by
  cases hc : a.cur with
  | none => simp [parseEnd, absEnd, AState.conc, hc]
  | some c =>
    have hp := pipeline_conc a h c hc
    have hcur : a.conc.current_cmd = some a.prev.length := by simp [AState.conc, hc]
    have hget : a.conc.heap[a.prev.length]? = some c := by simp [AState.conc, hc]
    have hi : a.conc.input_count = a.input_count := rfl
    have ho : a.conc.output_count = a.output_count := rfl
    simp only [parseEnd, absEnd, hcur, hget, hp, hi, ho, hc]

theorem ainv_pipe (a : AState) (h : AInv a) (c : Command) :
    AInv ⟨a.prev ++ [{ c with next := some (a.prev.length + 1) }], some zeroCommand,
      a.input_count, a.output_count, true⟩ := by
  constructor
  · intro hh; simp at hh
  · intro d hd; simp at hd; subst hd; rfl
  · intro _; rfl
  · intro i d hd
    simp only at hd
    rcases Nat.lt_or_ge i a.prev.length with hi | hi
    · rw [List.getElem?_append_left hi] at hd
      exact h.linked i d hd
    · rw [List.getElem?_append_right hi] at hd
      have h0 : i - a.prev.length = 0 := by
        by_contra hne
        have : 1 ≤ i - a.prev.length := by omega
        simp [List.getElem?_eq_none, this] at hd
      rw [h0] at hd
      simp at hd
      subst hd
      simp
      omega

theorem ainv_cur (a : AState) (h : AInv a) (d : Command)
    (hd : d.next = none) (ic oc : Nat) :
    AInv ⟨a.prev, some d, ic, oc, a.has_pipe⟩ := by
  constructor
  · intro hh; simp at hh
  · intro e he; simp at he; subst he; exact hd
  · exact h.pipe
  · exact h.linked

theorem ainv_init : AInv AState.init := by
  constructor <;> simp [AState.init]


theorem conc_cur_some (a : AState) (c : Command) (hc : a.cur = some c) :
    a.conc.current_cmd = some a.prev.length ∧ a.conc.heap[a.prev.length]? = some c ∧
    a.conc.cmd_head = some 0 ∧ a.conc.heap = a.prev ++ [c] := by
  simp [AState.conc, hc]

theorem conc_cur_none (a : AState) (h : AInv a) (hc : a.cur = none) :
    a.conc.current_cmd = none ∧ a.conc.heap = [] ∧ a.conc.cmd_head = none := by
  have := h.cur_none hc
  simp [AState.conc, hc, this]


theorem classify_pipe (rest : List CStr) : classify (tokPipe :: rest) = .pipe :: classify rest := by
  cases rest <;> simp [classify]

theorem classify_word (part : CStr) (rest : List CStr) (h1 : part ≠ tokPipe) (h2 : part ≠ tokLt)
    (h3 : part ≠ tokGt) (h4 : part ≠ tokGtGt) :
    classify (part :: rest) = .word part :: classify rest := by
  cases rest <;> simp [classify, h1, h2, h3, h4]

theorem classify_lt (file : CStr) (rest : List CStr) :
    classify (tokLt :: file :: rest) = .redirIn (some file) :: classify rest := by
  simp [classify, tokLt, tokPipe]

theorem classify_gt (part file : CStr) (rest : List CStr) (h : part = tokGt ∨ part = tokGtGt) :
    classify (part :: file :: rest) =
      .redirOut (decide (part = tokGtGt)) (some file) :: classify rest := by
  rcases h with h | h <;> subst h <;> simp [classify, tokLt, tokPipe, tokGt, tokGtGt]

theorem parseLoop_conc : ∀ (n : Nat) (toks : List CStr) (a : AState),
    toks.length ≤ n → AInv a → parseLoop toks a.conc = absLoop (classify toks) a := by
  intro n
  induction n with
  | zero =>
    intro toks a hn h
    have : toks = [] := List.length_eq_zero.mp (Nat.le_zero.mp hn)
    subst this
    simp only [parseLoop, absLoop, classify]
    exact parseEnd_conc a h
  | succ n ih =>
    intro toks a hn h
    cases toks with
    | nil =>
      simp only [parseLoop, absLoop, classify]
      exact parseEnd_conc a h
    | cons part rest =>
      have hrest : rest.length ≤ n := by simpa using hn
      by_cases hp : part = tokPipe
      · subst hp
        cases hc : a.cur with
        | none =>
          obtain ⟨h1, h2, h3⟩ := conc_cur_none a h hc
          cases rest <;> simp [parseLoop, classify, absLoop, h1, hc]
        | some c =>
          obtain ⟨h1, h2, h3, h4⟩ := conc_cur_some a c hc
          by_cases ha : c.args = []
          · cases rest <;> simp [parseLoop, classify, absLoop, h1, h2, hc, ha]
          · have := ih rest _ hrest (ainv_pipe a h c)
            have e : parseLoop (tokPipe :: rest) a.conc = parseLoop rest
                { a.conc with
                  heap := (a.conc.heap.set a.prev.length { c with next := some a.conc.heap.length })
                    ++ [zeroCommand],
                  current_cmd := some a.conc.heap.length,
                  has_pipe := true } := by
              cases rest <;> simp [parseLoop, h1, h2, ha]
            rw [e, classify_pipe]
            simp only [absLoop, hc, ha, if_true, if_false]
            rw [← this]
            congr 1
            simp [AState.conc, hc]
      · by_cases hl : part = tokLt
        · subst hl
          cases rest with
          | nil => simp [parseLoop, classify, absLoop, tokLt, tokPipe]
          | cons file rest2 =>
            have hrest2 : rest2.length ≤ n := by simp at hrest; omega
            rw [classify_lt]
            cases hc : a.cur with
            | none =>
              obtain ⟨h1, h2, h3⟩ := conc_cur_none a h hc
              have hpv := h.cur_none hc
              have hi : a.conc.input_count = a.input_count := rfl
              have hh : a.conc.has_pipe = a.has_pipe := rfl
              by_cases hcnt : a.input_count > 0
              · simp [parseLoop, absLoop, hp, hi, hcnt]
              · simp [parseLoop, absLoop, hp, hi, hh, hcnt, h1, h3, hpv, hc]
            | some c =>
              obtain ⟨h1, h2, h3, h4⟩ := conc_cur_some a c hc
              have hi : a.conc.input_count = a.input_count := rfl
              have hh : a.conc.has_pipe = a.has_pipe := rfl
              have hne : ((some a.prev.length : Option Nat) != some 0) = !a.prev.isEmpty := by
                cases a.prev <;> simp
              by_cases hcond : (decide (a.input_count > 0) || (a.has_pipe && !a.prev.isEmpty)) = true
              · have e : parseLoop (tokLt :: file :: rest2) a.conc = .invalid := by
                  simp only [parseLoop, hp, if_false, if_true, hi, hh, h1, h3, hne, hcond]
                rw [e]
                simp only [absLoop, hcond, if_true]
              · have := ih rest2 _ hrest2
                  (ainv_cur a h { c with input_file := some file } (h.cur_next c hc)
                    (a.input_count + 1) a.output_count)
                have e : parseLoop (tokLt :: file :: rest2) a.conc = parseLoop rest2
                    { a.conc with
                      heap := a.conc.heap.set a.prev.length { c with input_file := some file },
                      input_count := a.conc.input_count + 1 } := by
                  simp only [parseLoop, hp, if_false, if_true, hi, hh, h1, h3, hne, hcond, h2]
                  rfl
                rw [e]
                simp only [absLoop, hcond, hc]
                rw [← this]
                congr 1
                simp [AState.conc, hc]
        · by_cases hg : part = tokGt ∨ part = tokGtGt
          · have hg2 : (decide (part = tokGt) || decide (part = tokGtGt)) = true := by
              simpa using hg
            cases rest with
            | nil =>
              simp [parseLoop, classify, absLoop, hp, hl, hg2]
            | cons file rest2 =>
              have hrest2 : rest2.length ≤ n := by simp at hrest; omega
              rw [classify_gt part file rest2 hg]
              have ho : a.conc.output_count = a.output_count := rfl
              by_cases hcnt : a.output_count > 0
              · simp [parseLoop, absLoop, hp, hl, hg2, ho, hcnt]
              · cases hc : a.cur with
                | none =>
                  obtain ⟨h1, h2, h3⟩ := conc_cur_none a h hc
                  simp [parseLoop, absLoop, hp, hl, hg2, ho, hcnt, h1, hc]
                | some c =>
                  obtain ⟨h1, h2, h3, h4⟩ := conc_cur_some a c hc
                  have hnx := h.cur_next c hc
                  have := ih rest2 _ hrest2
                    (ainv_cur a h { c with output_file := some file,
                                           append := decide (part = tokGtGt) } hnx
                      a.input_count (a.output_count + 1))
                  have e : parseLoop (part :: file :: rest2) a.conc = parseLoop rest2
                      { a.conc with
                        heap := a.conc.heap.set a.prev.length
                          { c with output_file := some file, append := decide (part = tokGtGt) },
                        output_count := a.conc.output_count + 1 } := by
                    simp only [parseLoop, hp, hl, if_false, if_true, hg2, ho, hcnt, h1, h2, hnx]
                    simp
                  rw [e]
                  simp only [absLoop, hcnt, hc, if_false]
                  rw [← this]
                  congr 1
                  simp [AState.conc, hc]
          · have hg3 : part ≠ tokGt := fun hh => hg (Or.inl hh)
            have hg4 : part ≠ tokGtGt := fun hh => hg (Or.inr hh)
            rw [classify_word part rest hp hl hg3 hg4]
            cases hc : a.cur with
            | none =>
              obtain ⟨h1, h2, h3⟩ := conc_cur_none a h hc
              have hpv := h.cur_none hc
              cases hs : storeArg zeroCommand part with
              | none =>
                have e : parseLoop (part :: rest) a.conc = .fault := by
                  cases rest <;> simp [parseLoop, hp, hl, hg3, hg4, h1, h2, hs]
                rw [e]
                simp only [absLoop, hc, Option.getD, hs]
              | some c1 =>
                have hn1 : c1.next = none := by rw [storeArg_next _ _ _ hs]; rfl
                have := ih rest _ hrest (ainv_cur a h c1 hn1 a.input_count a.output_count)
                have e : parseLoop (part :: rest) a.conc = parseLoop rest
                    { a.conc with heap := [c1], current_cmd := some 0, cmd_head := some 0 } := by
                  cases rest <;> simp [parseLoop, hp, hl, hg3, hg4, h1, h2, hs]
                rw [e]
                simp only [absLoop, hc, Option.getD, hs]
                rw [← this]
                congr 1
                simp [AState.conc, hc, hpv]
            | some c =>
              obtain ⟨h1, h2, h3, h4⟩ := conc_cur_some a c hc
              cases hs : storeArg c part with
              | none =>
                have e : parseLoop (part :: rest) a.conc = .fault := by
                  cases rest <;> simp [parseLoop, hp, hl, hg3, hg4, h1, h2, hs]
                rw [e]
                simp only [absLoop, hc, Option.getD, hs]
              | some c1 =>
                have hn1 : c1.next = none := by
                  rw [storeArg_next _ _ _ hs]; exact h.cur_next c hc
                have := ih rest _ hrest (ainv_cur a h c1 hn1 a.input_count a.output_count)
                have e : parseLoop (part :: rest) a.conc = parseLoop rest
                    { a.conc with heap := a.conc.heap.set a.prev.length c1 } := by
                  cases rest <;> simp [parseLoop, hp, hl, hg3, hg4, h1, h2, hs]
                rw [e]
                simp only [absLoop, hc, Option.getD, hs]
                rw [← this]
                congr 1
                simp [AState.conc, hc]

theorem parse_command_eq (line : List Char) :
    parse_command line = absLoop (lineItems line) AState.init := by
  have := parseLoop_conc (tokenize line).length (tokenize line) AState.init (Nat.le_refl _) ainv_init
  simpa [parse_command, lineItems, AState.conc, AState.init, PState.init] using this

theorem execute_line_eq (env : Env) (jobs : List Job) (line : CStr) :
    execute_line env jobs line =
      afterParse env jobs (strncpy line MAX_CMD_LENGTH) (absLoop (lineItems line) AState.init) := by
  unfold execute_line
  rw [parse_command_eq]

/-! ## Properties of the item-level parser -/

theorem agood_init : AGood AState.init := by
  constructor <;> simp [AState.init]

theorem absLoop_ok_good : ∀ (items : List Item) (a : AState) (p : List Command),
    AGood a → absLoop items a = .ok p →
      p ≠ [] ∧ (∀ c ∈ p, c.args ≠ []) ∧
        (∀ c ∈ p.tail, c.input_file = none ∨ MAX_ARGS ≤ c.args.length) := by
  intro items
  induction items with
  | nil =>
    intro a p hg h
    simp only [absLoop, absEnd] at h
    cases hc : a.cur with
    | none => simp [hc] at h
    | some c =>
      simp only [hc] at h
      split at h
      · cases h
      · split at h
        · cases h
        · rename_i hargs _
          injection h with h
          subst h
          refine ⟨by simp, ?_, ?_⟩
          · intro d hd
            rcases List.mem_append.mp hd with hd | hd
            · exact hg.args d hd
            · simp at hd; subst hd; exact hargs
          · intro d hd
            cases hpv : a.prev with
            | nil => simp [hpv] at hd
            | cons x xs =>
              rw [hpv] at hd
              simp at hd
              rcases hd with hd | hd
              · apply hg.inp_prev; rw [hpv]; simpa using hd
              · subst hd; exact hg.inp_cur (by simp [hpv]) d hc
  | cons it rest ih =>
    intro a p hg h
    cases it with
    | pipe =>
      simp only [absLoop] at h
      cases hc : a.cur with
      | none => simp [hc] at h
      | some c =>
        simp only [hc] at h
        split at h
        · cases h
        · rename_i hargs
          refine ih _ p ?_ h
          constructor
          · intro d hd
            simp only at hd
            rcases List.mem_append.mp hd with hd | hd
            · exact hg.args d hd
            · simp at hd; subst hd; exact hargs
          · intro d hd
            simp only at hd
            cases hpv : a.prev with
            | nil => simp [hpv] at hd
            | cons x xs =>
              rw [hpv] at hd
              simp at hd
              rcases hd with hd | hd
              · apply hg.inp_prev; rw [hpv]; simpa using hd
              · subst hd; exact hg.inp_cur (by simp [hpv]) c hc
          · intro _ d hd
            simp at hd; subst hd; exact Or.inl rfl
          · intro _; rfl
    | redirIn file =>
      cases file with
      | none => simp [absLoop] at h
      | some f =>
        simp only [absLoop] at h
        split at h
        · cases h
        · rename_i hcond
          cases hc : a.cur with
          | none => simp [hc] at h
          | some c =>
            simp only [hc] at h
            refine ih _ p ?_ h
            constructor
            · exact hg.args
            · exact hg.inp_prev
            · intro hne d hd
              exfalso
              have := hg.pipe hne
              apply hcond
              simp only at hne
              cases hpv : a.prev with
              | nil => exact absurd hpv hne
              | cons x xs => simp [this]
            · exact hg.pipe
    | redirOut app file =>
      cases file with
      | none => simp [absLoop] at h
      | some f =>
        simp only [absLoop] at h
        split at h
        · cases h
        · cases hc : a.cur with
          | none => simp [hc] at h
          | some c =>
            simp only [hc] at h
            refine ih _ p ?_ h
            constructor
            · exact hg.args
            · exact hg.inp_prev
            · intro hne d hd
              simp at hd; subst hd
              exact hg.inp_cur hne c hc
            · exact hg.pipe
    | word w =>
      simp only [absLoop] at h
      cases hs : storeArg (a.cur.getD zeroCommand) w with
      | none => simp [hs] at h
      | some c1 =>
        simp only [hs] at h
        refine ih _ p ?_ h
        constructor
        · exact hg.args
        · exact hg.inp_prev
        · intro hne d hd
          simp at hd; subst hd
          apply storeArg_inp _ _ _ hs
          cases hc : a.cur with
          | none => exact Or.inl rfl
          | some c => simpa [hc] using hg.inp_cur hne c hc
        · exact hg.pipe

theorem absLoop_emptyStage : ∀ (items : List Item) (a : AState) (p : List Command),
    hasEmptyStage (curHasWord a) items = true → absLoop items a ≠ .ok p := by
  intro items
  induction items with
  | nil =>
    intro a p hE h
    simp only [hasEmptyStage, curHasWord] at hE
    simp only [absLoop, absEnd] at h
    cases hc : a.cur with
    | none => simp [hc] at h
    | some c =>
      simp only [hc] at h hE
      have : c.args = [] := by simpa using hE
      simp [this] at h
  | cons it rest ih =>
    intro a p hE h
    cases it with
    | pipe =>
      simp only [absLoop] at h
      cases hc : a.cur with
      | none => simp [hc] at h
      | some c =>
        simp only [hc] at h
        split at h
        · cases h
        · rename_i hargs
          refine ih _ p ?_ h
          simp only [hasEmptyStage, curHasWord, hc] at hE
          simp only [curHasWord, zeroCommand]
          simpa [hargs] using hE
    | redirIn file =>
      cases file with
      | none => simp [absLoop] at h
      | some f =>
        simp only [absLoop] at h
        split at h
        · cases h
        · cases hc : a.cur with
          | none => simp [hc] at h
          | some c =>
            simp only [hc] at h
            refine ih _ p ?_ h
            simpa [hasEmptyStage, curHasWord, hc] using hE
    | redirOut app file =>
      cases file with
      | none => simp [absLoop] at h
      | some f =>
        simp only [absLoop] at h
        split at h
        · cases h
        · cases hc : a.cur with
          | none => simp [hc] at h
          | some c =>
            simp only [hc] at h
            refine ih _ p ?_ h
            simpa [hasEmptyStage, curHasWord, hc] using hE
    | word w =>
      simp only [absLoop] at h
      cases hs : storeArg (a.cur.getD zeroCommand) w with
      | none => simp [hs] at h
      | some c1 =>
        simp only [hs] at h
        refine ih _ p ?_ h
        simp only [hasEmptyStage] at hE
        have hne : c1.args.isEmpty = false := by
          have := storeArg_args_ne _ _ _ hs
          cases hc1 : c1.args with
          | nil => exact absurd hc1 this
          | cons x xs => rfl
        simpa [curHasWord, hne] using hE

theorem absLoop_countIn : ∀ (items : List Item) (a : AState) (p : List Command),
    2 ≤ a.input_count + countIn items → absLoop items a ≠ .ok p := by
  intro items
  induction items with
  | nil =>
    intro a p hE h
    simp only [countIn, Nat.add_zero] at hE
    simp only [absLoop, absEnd] at h
    cases hc : a.cur with
    | none => simp [hc] at h
    | some c =>
      simp only [hc] at h
      have : a.input_count > 1 := hE
      simp [this] at h
  | cons it rest ih =>
    intro a p hE h
    cases it with
    | pipe =>
      simp only [absLoop] at h
      cases hc : a.cur with
      | none => simp [hc] at h
      | some c =>
        simp only [hc] at h
        split at h
        · cases h
        · exact ih _ p (by simpa [countIn] using hE) h
    | redirIn file =>
      cases file with
      | none => simp [absLoop] at h
      | some f =>
        simp only [absLoop] at h
        split at h
        · cases h
        · cases hc : a.cur with
          | none => simp [hc] at h
          | some c =>
            simp only [hc] at h
            refine ih _ p ?_ h
            simp only [countIn] at hE
            simp only
            omega
    | redirOut app file =>
      cases file with
      | none => simp [absLoop] at h
      | some f =>
        simp only [absLoop] at h
        split at h
        · cases h
        · cases hc : a.cur with
          | none => simp [hc] at h
          | some c =>
            simp only [hc] at h
            exact ih _ p (by simpa [countIn] using hE) h
    | word w =>
      simp only [absLoop] at h
      cases hs : storeArg (a.cur.getD zeroCommand) w with
      | none => simp [hs] at h
      | some c1 =>
        simp only [hs] at h
        exact ih _ p (by simpa [countIn] using hE) h

theorem absLoop_countOut : ∀ (items : List Item) (a : AState) (p : List Command),
    2 ≤ a.output_count + countOut items → absLoop items a ≠ .ok p := by
  intro items
  induction items with
  | nil =>
    intro a p hE h
    simp only [countOut, Nat.add_zero] at hE
    simp only [absLoop, absEnd] at h
    cases hc : a.cur with
    | none => simp [hc] at h
    | some c =>
      simp only [hc] at h
      have : a.output_count > 1 := hE
      simp [this] at h
  | cons it rest ih =>
    intro a p hE h
    cases it with
    | pipe =>
      simp only [absLoop] at h
      cases hc : a.cur with
      | none => simp [hc] at h
      | some c =>
        simp only [hc] at h
        split at h
        · cases h
        · exact ih _ p (by simpa [countOut] using hE) h
    | redirIn file =>
      cases file with
      | none => simp [absLoop] at h
      | some f =>
        simp only [absLoop] at h
        split at h
        · cases h
        · cases hc : a.cur with
          | none => simp [hc] at h
          | some c =>
            simp only [hc] at h
            exact ih _ p (by simpa [countOut] using hE) h
    | redirOut app file =>
      cases file with
      | none => simp [absLoop] at h
      | some f =>
        simp only [absLoop] at h
        split at h
        · cases h
        · cases hc : a.cur with
          | none => simp [hc] at h
          | some c =>
            simp only [hc] at h
            refine ih _ p ?_ h
            simp only [countOut] at hE
            simp only
            omega
    | word w =>
      simp only [absLoop] at h
      cases hs : storeArg (a.cur.getD zeroCommand) w with
      | none => simp [hs] at h
      | some c1 =>
        simp only [hs] at h
        exact ih _ p (by simpa [countOut] using hE) h

theorem hasEmptyStage_lastPipe : ∀ (items : List Item) (hw : Bool),
    items.getLast? = some .pipe → hasEmptyStage hw items = true := by
  intro items
  induction items with
  | nil => intro hw h; simp at h
  | cons it rest ih =>
    intro hw h
    cases rest with
    | nil =>
      simp at h
      subst h
      simp [hasEmptyStage]
    | cons it2 rest2 =>
      have h2 : (it2 :: rest2).getLast? = some .pipe := by
        simpa [List.getLast?_cons_cons] using h
      cases it <;> simp [hasEmptyStage, ih _ h2]

theorem absLoop_inAfterPipe : ∀ (items : List Item) (a : AState) (p : List Command) (seen : Bool),
    (seen = true → a.has_pipe = true ∧ a.prev ≠ []) →
    inAfterPipe seen items = true → absLoop items a ≠ .ok p := by
  intro items
  induction items with
  | nil => intro a p seen _ hE; simp [inAfterPipe] at hE
  | cons it rest ih =>
    intro a p seen hs hE h
    cases it with
    | pipe =>
      simp only [absLoop] at h
      cases hc : a.cur with
      | none => simp [hc] at h
      | some c =>
        simp only [hc] at h
        split at h
        · cases h
        · exact ih _ p true (by intro _; simp) (by simpa [inAfterPipe] using hE) h
    | redirIn file =>
      cases file with
      | none => simp [absLoop] at h
      | some f =>
        simp only [absLoop] at h
        split at h
        · cases h
        · rename_i hcond
          cases hc : a.cur with
          | none => simp [hc] at h
          | some c =>
            simp only [hc] at h
            simp only [inAfterPipe, Bool.or_eq_true] at hE
            rcases hE with hE | hE
            · obtain ⟨h1, h2⟩ := hs hE
              apply hcond
              cases hpv : a.prev with
              | nil => exact absurd hpv h2
              | cons x xs => simp [h1]
            · refine ih _ p seen ?_ hE h
              exact hs
    | redirOut app file =>
      cases file with
      | none => simp [absLoop] at h
      | some f =>
        simp only [absLoop] at h
        split at h
        · cases h
        · cases hc : a.cur with
          | none => simp [hc] at h
          | some c =>
            simp only [hc] at h
            refine ih _ p seen ?_ (by simpa [inAfterPipe] using hE) h
            exact hs
    | word w =>
      simp only [absLoop] at h
      cases hst : storeArg (a.cur.getD zeroCommand) w with
      | none => simp [hst] at h
      | some c1 =>
        simp only [hst] at h
        refine ih _ p seen ?_ (by simpa [inAfterPipe] using hE) h
        exact hs

/-! ## The tokenizer -/

theorem skipDelims_all (l rest : List Char) (h : l.all isDelim = true) :
    skipDelims (l ++ rest) = skipDelims rest := by
  induction l with
  | nil => rfl
  | cons c cs ih =>
    simp only [List.all_cons, Bool.and_eq_true] at h
    simp [skipDelims, h.1, ih h.2]

theorem skipDelims_nil_of_all (l : List Char) (h : l.all isDelim = true) : skipDelims l = [] := by
  have := skipDelims_all l [] h
  simpa [skipDelims] using this

theorem scanToken_tok (t gap rest : List Char) (ht : t.all (fun c => !isDelim c) = true)
    (hg : gap.all isDelim = true) (hr : gap = [] → rest = []) :
    scanToken (t ++ gap ++ rest) = (t, gap.tail ++ rest) := by
  induction t with
  | nil =>
    cases gap with
    | nil => simp [hr rfl, scanToken]
    | cons d ds =>
      simp only [List.all_cons, Bool.and_eq_true] at hg
      simp [scanToken, hg.1]
  | cons c cs ih =>
    simp only [List.all_cons, Bool.and_eq_true, Bool.not_eq_true'] at ht
    have hrec := ih (by simpa using ht.2)
    have e : scanToken (c :: (cs ++ gap ++ rest)) =
        (c :: (scanToken (cs ++ gap ++ rest)).1, (scanToken (cs ++ gap ++ rest)).2) := by
      simp [scanToken, ht.1]
    show scanToken (c :: (cs ++ gap ++ rest)) = _
    rw [e, hrec]

theorem strtok_tok (lead t gap rest : List Char) (hl : lead.all isDelim = true)
    (hne : t ≠ []) (ht : t.all (fun c => !isDelim c) = true)
    (hg : gap.all isDelim = true) (hr : gap = [] → rest = []) :
    strtok (lead ++ (t ++ gap ++ rest)) = some (t, gap.tail ++ rest) := by
  unfold strtok
  rw [skipDelims_all lead _ hl]
  cases t with
  | nil => exact absurd rfl hne
  | cons c cs =>
    have hc : isDelim c = false := by
      simp only [List.all_cons, Bool.and_eq_true, Bool.not_eq_true'] at ht
      exact ht.1
    have hs : skipDelims (c :: cs ++ gap ++ rest) = c :: cs ++ gap ++ rest := by
      simp [skipDelims, hc]
    rw [hs]
    simp only [List.cons_append]
    have := scanToken_tok (c :: cs) gap rest ht hg hr
    simp only [List.cons_append] at this
    rw [this]

theorem strtokAll_joinLine : ∀ (toks : List (CStr × List Char)) (lead : List Char) (fuel : Nat),
    plainLine isDelim lead toks = true → toks.length < fuel →
      strtokAll fuel (joinLine lead toks) = toks.map Prod.fst := by
  intro toks
  induction toks with
  | nil =>
    intro lead fuel h hf
    simp only [plainLine, List.all_nil, gapsOk, Bool.and_true] at h
    cases fuel with
    | zero => simp at hf
    | succ n =>
      simp [joinLine, strtokAll, strtok, skipDelims_nil_of_all lead h]
  | cons p rest ih =>
    intro lead fuel h hf
    simp only [plainLine, List.all_cons, Bool.and_eq_true, Bool.not_eq_true'] at h
    obtain ⟨⟨hl, ⟨⟨⟨hne, hch⟩, hop⟩, hgap⟩, hrest⟩, hgaps⟩ := h
    cases fuel with
    | zero => simp at hf
    | succ n =>
      have hr : p.2 = [] → (rest.map (fun q => q.1 ++ q.2)).flatten = [] := by
        intro hp2
        cases rest with
        | nil => rfl
        | cons q r => simp [gapsOk, hp2] at hgaps
      have hne2 : p.1 ≠ [] := by
        intro hh; simp [hh] at hne
      have hst := strtok_tok lead p.1 p.2 _ hl hne2 (by simpa using hch) hgap hr
      have hjl : joinLine lead (p :: rest) =
          lead ++ (p.1 ++ p.2 ++ (rest.map (fun q => q.1 ++ q.2)).flatten) := by
        simp [joinLine]
      rw [hjl]
      simp only [strtokAll, hst, List.map_cons]
      have hrec := ih p.2.tail n (by
        simp only [plainLine, Bool.and_eq_true]
        refine ⟨⟨?_, hrest⟩, ?_⟩
        · cases hp : p.2 with
          | nil => rfl
          | cons d ds =>
            rw [hp] at hgap
            simp only [List.all_cons, Bool.and_eq_true] at hgap
            simpa using hgap.2
        · cases rest with
          | nil => rfl
          | cons q r =>
            simp only [gapsOk, Bool.and_eq_true] at hgaps
            exact hgaps.2) (by simpa using hf)
      simp only [joinLine] at hrec
      rw [hrec]

theorem tokenize_joinLine (toks : List (CStr × List Char)) (lead : List Char)
    (h : plainLine isDelim lead toks = true) :
    tokenize (joinLine lead toks) = toks.map Prod.fst := by
  apply strtokAll_joinLine toks lead _ h
  have hlen : ∀ (ts : List (CStr × List Char)),
      ts.all (fun p => !p.1.isEmpty && p.1.all (fun c => !isDelim c) && !isOperator p.1
        && p.2.all isDelim) = true →
      ts.length ≤ ((ts.map (fun p => p.1 ++ p.2)).flatten).length := by
    intro ts
    induction ts with
    | nil => intro _; simp
    | cons p r ih =>
      intro hall
      simp only [List.all_cons, Bool.and_eq_true, Bool.not_eq_true'] at hall
      have h1 := ih hall.2
      have h2 : 1 ≤ p.1.length := by
        cases hp : p.1 with
        | nil => have := hall.1.1.1.1; simp [hp] at this
        | cons c cs => simp
      simp only [List.map_cons, List.flatten_cons, List.length_append, List.length_cons]
      omega
  simp only [plainLine, Bool.and_eq_true] at h
  have := hlen toks h.1.2
  simp only [joinLine, List.length_append]
  omega

theorem skipDelims_length (s : List Char) : (skipDelims s).length ≤ s.length := by
  induction s with
  | nil => simp [skipDelims]
  | cons c cs ih =>
    simp only [skipDelims]
    split
    · simp only [List.length_cons]; omega
    · simp

theorem scanToken_length (s : List Char) : (scanToken s).2.length ≤ s.length := by
  induction s with
  | nil => simp [scanToken]
  | cons c cs ih =>
    simp only [scanToken]
    split
    · simp
    · simp only [List.length_cons]
      have : (match scanToken cs with | (tok, rest) => (c :: tok, rest)).2 = (scanToken cs).2 := by
        cases scanToken cs; rfl
      rw [this]
      omega

theorem strtok_length (s tok rest : List Char) (h : strtok s = some (tok, rest)) :
    rest.length < s.length := by
  unfold strtok at h
  have h1 := skipDelims_length s
  cases hs : skipDelims s with
  | nil => simp [hs] at h
  | cons c cs =>
    rw [hs] at h h1
    simp only [Option.some.injEq] at h
    have h2 : (scanToken (c :: cs)).2 = rest := by rw [h]
    have h3 : (scanToken (c :: cs)).2.length ≤ cs.length := by
      simp only [scanToken]
      split
      · simp
      · have : (match scanToken cs with | (tok, rest) => (c :: tok, rest)).2 = (scanToken cs).2 := by
          cases scanToken cs; rfl
        rw [this]
        exact scanToken_length cs
    rw [h2] at h3
    simp only [List.length_cons] at h1
    omega

/-- The fuel of `tokenize` is enough: more fuel gives the same tokens. -/
theorem strtokAll_fuel : ∀ (fuel : Nat) (s : List Char) (k : Nat), s.length < fuel →
    strtokAll (fuel + k) s = strtokAll fuel s := by
  intro fuel
  induction fuel with
  | zero => intro s k h; omega
  | succ n ih =>
    intro s k h
    have e : n + 1 + k = (n + k) + 1 := by omega
    rw [e]
    simp only [strtokAll]
    cases hs : strtok s with
    | none => rfl
    | some r =>
      obtain ⟨tok, rest⟩ := r
      have := strtok_length s tok rest hs
      simp only
      rw [ih rest k (by omega)]

theorem classify_plain : ∀ (ws : List CStr), (ws.all (fun w => !isOperator w) = true) →
    classify ws = ws.map Item.word := by
  intro ws
  induction ws with
  | nil => intro _; rfl
  | cons w r ih =>
    intro h
    simp only [List.all_cons, Bool.and_eq_true, Bool.not_eq_true'] at h
    have hop := h.1
    simp only [isOperator, Bool.or_eq_false_iff, decide_eq_false_iff_not] at hop
    rw [classify_word w r hop.1.1.1 hop.1.1.2 hop.1.2 hop.2, ih h.2]
    rfl

theorem absLoop_word_step (w : CStr) (rest : List Item) (a : AState)
    (h : (a.cur.getD zeroCommand).args.length + 1 < MAX_ARGS) :
    absLoop (.word w :: rest) a =
      absLoop rest ⟨a.prev, some { (a.cur.getD zeroCommand) with
                args := (a.cur.getD zeroCommand).args ++ [w] },
              a.input_count, a.output_count, a.has_pipe⟩ := by
  simp only [absLoop, storeArg_below _ w h]

theorem absLoop_words : ∀ (ws : List CStr) (w : CStr) (a : AState),
    (a.cur.getD zeroCommand).args.length + ws.length + 1 < MAX_ARGS →
    absLoop ((w :: ws).map Item.word) a =
      absEnd ⟨a.prev, some { (a.cur.getD zeroCommand) with
                args := (a.cur.getD zeroCommand).args ++ w :: ws },
              a.input_count, a.output_count, a.has_pipe⟩ := by
  intro ws
  induction ws with
  | nil =>
    intro w a h
    have h1 : (a.cur.getD zeroCommand).args.length + 1 < MAX_ARGS := by simpa using h
    rw [List.map_cons, absLoop_word_step w _ a h1]
    rfl
  | cons w2 r ih =>
    intro w a h
    have h1 : (a.cur.getD zeroCommand).args.length + 1 < MAX_ARGS := by
      simp only [List.length_cons] at h; omega
    rw [List.map_cons, absLoop_word_step w _ a h1, ih w2 _ (by
      simp only [Option.getD_some, List.length_append, List.length_cons, List.length_nil] at h ⊢
      omega)]
    simp

/-! ## The job table -/

theorem shiftDown_length : ∀ (n j : Nat) (l : List Job), (shiftDown n j l).length = l.length := by
  intro n
  induction n with
  | zero => intro j l; rfl
  | succ n ih =>
    intro j l
    simp only [shiftDown]
    cases h : l[j + 1]? with
    | none => rfl
    | some x => simp [ih]

theorem shiftDown_get : ∀ (n j : Nat) (l : List Job) (k : Nat), j + n < l.length →
    (shiftDown n j l)[k]? = if j ≤ k ∧ k < j + n then l[k + 1]? else l[k]? := by
  intro n
  induction n with
  | zero =>
    intro j l k _
    have : ¬ (j ≤ k ∧ k < j + 0) := by omega
    simp only [shiftDown, this, if_false]
  | succ n ih =>
    intro j l k hlen
    have hj1 : j + 1 < l.length := by omega
    have hx : l[j + 1]? = some l[j + 1] := by simp [hj1]
    simp only [shiftDown, hx]
    rw [ih (j + 1) _ k (by simp; omega)]
    by_cases h1 : j + 1 ≤ k ∧ k < j + 1 + n
    · have h2 : j ≤ k ∧ k < j + (n + 1) := by omega
      simp only [h1, h2, and_self, if_true]
      rw [List.getElem?_set]
      have : ¬ j = k + 1 := by omega
      simp [this]
    · simp only [h1, if_false]
      rw [List.getElem?_set]
      by_cases hjk : j = k
      · subst hjk
        have h2 : j ≤ j ∧ j < j + (n + 1) := by omega
        have hjl : j < l.length := by omega
        simp [h2, hjl, hx]
      · have h2 : ¬ (j ≤ k ∧ k < j + (n + 1)) := by omega
        simp [hjk, h2]


theorem shiftDown_take (i : Nat) (l : List Job) (hi : i < l.length) :
    (shiftDown (l.length - 1 - i) i l).take (l.length - 1) = l.eraseIdx i := by
  apply List.ext_getElem?
  intro k
  rw [List.getElem?_take, List.getElem?_eraseIdx, shiftDown_get _ _ _ _ (by omega)]
  by_cases hk : k < l.length - 1
  · by_cases hki : k < i
    · have : ¬ (i ≤ k ∧ k < i + (l.length - 1 - i)) := by omega
      simp [hk, hki, this]
    · have : i ≤ k ∧ k < i + (l.length - 1 - i) := by omega
      simp [hk, hki, this]
  · have h1 : ¬ k < i := by omega
    have h2 : l.length ≤ k + 1 := by omega
    simp [hk, h1, List.getElem?_eq_none h2]

theorem removeJobFrom_eq : ∀ (n i : Nat) (pid : Int) (l : List Job) (m : Nat) (job : Job),
    i + n = l.length → i ≤ m → l[m]? = some job → job.pid = pid →
    (∀ k j, i ≤ k → k < m → l[k]? = some j → j.pid ≠ pid) →
    removeJobFrom n i pid l = l.eraseIdx m := by
  intro n
  induction n with
  | zero =>
    intro i pid l m job hlen him hm _ _
    have : m < l.length := by
      by_contra hh
      rw [List.getElem?_eq_none (by omega)] at hm
      cases hm
    omega
  | succ n ih =>
    intro i pid l m job hlen him hm hpid hfirst
    have hil : i < l.length := by omega
    have hx : l[i]? = some l[i] := by simp [hil]
    simp only [removeJobFrom, hx]
    by_cases heq : (l[i]).pid = pid
    · simp only [heq, if_true]
      have : i = m := by
        by_contra hne
        have hlt : i < m := by omega
        exact hfirst i l[i] (Nat.le_refl _) hlt hx heq
      subst this
      exact shiftDown_take i l hil
    · simp only [heq, if_false]
      have hne : i ≠ m := by
        intro hh
        subst hh
        rw [hx] at hm
        injection hm with hm
        rw [hm] at heq
        exact heq hpid
      exact ih (i + 1) pid l m job (by omega) (by omega) hm hpid
        (fun k j hk1 hk2 hj => hfirst k j (by omega) hk2 hj)

theorem remove_job_nodup (l : List Job) (m : Nat) (job : Job)
    (hnd : (l.map Job.pid).Nodup) (hm : l[m]? = some job) :
    remove_job l job.pid = l.eraseIdx m := by
  unfold remove_job
  apply removeJobFrom_eq l.length 0 job.pid l m job (by simp) (Nat.zero_le _) hm rfl
  intro k j _ hkm hj hpid
  have hml : m < l.length := by
    by_contra hh
    rw [List.getElem?_eq_none (by omega)] at hm
    cases hm
  have hkl : k < l.length := by omega
  have h1 : (l.map Job.pid)[k]? = some j.pid := by simp [hj]
  have h2 : (l.map Job.pid)[m]? = some job.pid := by simp [hm]
  have hk' : k < (l.map Job.pid).length := by simpa using hkl
  have hm' : m < (l.map Job.pid).length := by simpa using hml
  have e1 : (l.map Job.pid)[k] = j.pid := by
    have := List.getElem?_eq_getElem hk'
    rw [this] at h1; injection h1
  have e2 : (l.map Job.pid)[m] = job.pid := by
    have := List.getElem?_eq_getElem hm'
    rw [this] at h2; injection h2
  have e : (l.map Job.pid)[k] = (l.map Job.pid)[m] := by rw [e1, e2, hpid]
  have := (List.Nodup.getElem_inj_iff hnd).mp e
  omega

theorem tokenize_spaces (n : Nat) : tokenize (List.replicate n ' ') = [] := by
  have h : plainLine isDelim (List.replicate n ' ') [] = true := by
    simp only [plainLine, List.all_nil, gapsOk, Bool.and_true, List.all_eq_true]
    intro c hc
    rw [List.eq_of_mem_replicate hc]
    rfl
  have := tokenize_joinLine [] (List.replicate n ' ') h
  simpa [joinLine] using this

theorem parse_spaces (n : Nat) : parse_command (List.replicate n ' ') = .invalid := by
  rw [parse_command_eq, lineItems, tokenize_spaces]
  rfl

/-! ## `atoi` on decimal numerals -/

theorem digitChar_props (d : Nat) (hd : d < 10) :
    isdigit (Char.ofNat (48 + d)) = true ∧ ((Char.ofNat (48 + d)).toNat : Int) - 48 = d ∧
    isspace (Char.ofNat (48 + d)) = false ∧ Char.ofNat (48 + d) ≠ '-' ∧
    Char.ofNat (48 + d) ≠ '+' := by
  interval_cases d <;> decide

theorem digitsVal_append : ∀ (l r : List Char) (acc : Int), (∀ c ∈ l, isdigit c = true) →
    digitsVal (l ++ r) acc = digitsVal r (digitsVal l acc) := by
  intro l
  induction l with
  | nil => intro r acc _; rfl
  | cons c cs ih =>
    intro r acc h
    have hc := h c (List.mem_cons_self _ _)
    simp only [List.cons_append, digitsVal, hc, if_true]
    exact ih r _ (fun x hx => h x (List.mem_cons_of_mem _ hx))

theorem digitsVal_digits : ∀ (ds : List Nat), (∀ d ∈ ds, d < 10) → ∀ (acc : Int),
    digitsVal (ds.reverse.map (fun d => Char.ofNat (48 + d))) acc =
      acc * 10 ^ ds.length + (Nat.ofDigits 10 ds : Nat) := by
  intro ds
  induction ds with
  | nil => intro _ acc; simp [digitsVal]
  | cons d r ih =>
    intro h acc
    have hd := h d (List.mem_cons_self _ _)
    have hr : ∀ x ∈ r, x < 10 := fun x hx => h x (List.mem_cons_of_mem _ hx)
    obtain ⟨h1, h2, _, _, _⟩ := digitChar_props d hd
    have hall : ∀ c ∈ r.reverse.map (fun d => Char.ofNat (48 + d)), isdigit c = true := by
      intro c hc
      simp only [List.mem_map, List.mem_reverse] at hc
      obtain ⟨x, hx, rfl⟩ := hc
      exact (digitChar_props x (hr x hx)).1
    simp only [List.reverse_cons, List.map_append, List.map_cons, List.map_nil]
    rw [digitsVal_append _ _ _ hall, ih hr acc]
    simp only [digitsVal, h1, if_true, h2, Nat.ofDigits_cons, List.length_cons]
    push_cast
    ring

theorem signedDigits_decimal (k : Nat) : signedDigits (decimal k) = (k : Int) := by
  have hlt : ∀ d ∈ Nat.digits 10 k, d < 10 := fun d hd => Nat.digits_lt_base (by decide) hd
  have hval := digitsVal_digits (Nat.digits 10 k) hlt 0
  rw [Nat.ofDigits_digits] at hval
  simp only [zero_mul, zero_add] at hval
  unfold signedDigits
  cases hds : (Nat.digits 10 k).reverse with
  | nil =>
    have : Nat.digits 10 k = [] := by simpa using hds
    have hk : k = 0 := by
      by_contra hne
      exact (Nat.digits_ne_nil_iff_ne_zero.mpr hne) this
    subst hk
    simp [decimal, digitsVal]
  | cons d r =>
    have hd : d < 10 := by
      apply hlt
      have : d ∈ (Nat.digits 10 k).reverse := by rw [hds]; exact List.mem_cons_self _ _
      simpa using this
    obtain ⟨_, _, h3, h4, h5⟩ := digitChar_props d hd
    have hdec : decimal k = Char.ofNat (48 + d) :: r.map (fun d => Char.ofNat (48 + d)) := by
      simp [decimal, hds]
    rw [← hval]
    simp only [decimal] at hdec ⊢
    rw [hdec]
    simp only [List.dropWhile, h3]
    split
    · rename_i heq
      injection heq with hh _
      exact absurd hh h4
    · rename_i heq
      injection heq with hh _
      exact absurd hh h5
    · rfl

/-- The value `atoi` gives the decimal numeral of `k` is `k`, for `k` in the
range of `int`. -/
theorem atoi_decimal (k : Nat) (hk : k < 2147483648) : atoi (decimal k) = (k : Int) := by
  unfold atoi strtol
  rw [signedDigits_decimal]
  simp only [LONG_MAX, LONG_MIN, toInt32]
  split_ifs <;> omega

/-! ## The fork loop and the wait loop of `execute_commands` -/

theorem execLoop_finished (env : Env) : ∀ (p : List Command) (x : XState),
    x.pids.length + p.length ≤ MAX_ARGS →
    (∀ c ∈ p, ∀ path, c.input_file = some path → env.open_ok path = true) →
    (∀ i, x.pids.length ≤ i → i < x.pids.length + p.length → env.pipe_ok i = true) →
    (∀ i, x.pids.length ≤ i → i < x.pids.length + p.length → (env.fork_pid i).isSome = true) →
    ∃ x', execLoop env p x = .finished x' ∧
      x'.pids = x.pids ++ (List.range' x.pids.length p.length).map
        (fun i => (env.fork_pid i).getD 0) := by
  intro p
  induction p with
  | nil =>
    intro x _ _ _ _
    exact ⟨x, rfl, by simp⟩
  | cons cmd rest ih =>
    intro x hn hopen hpipe hfork
    simp only [List.length_cons] at hn hpipe hfork
    have hk1 : env.pipe_ok x.pids.length = true := hpipe _ (Nat.le_refl _) (by omega)
    have hk2 := hfork x.pids.length (Nat.le_refl _) (by omega)
    obtain ⟨pid, hpid⟩ := Option.isSome_iff_exists.mp hk2
    have hcap : ¬ MAX_ARGS ≤ x.pids.length := by omega
    have hopen' : ∀ c ∈ rest, ∀ path, c.input_file = some path → env.open_ok path = true :=
      fun c hc => hopen c (List.mem_cons_of_mem _ hc)
    have key : ∀ (x3 : XState), x3.pids = x.pids ++ [pid] →
        ∃ x', execLoop env rest x3 = .finished x' ∧
          x'.pids = x.pids ++ (List.range' x.pids.length (rest.length + 1)).map
            (fun i => (env.fork_pid i).getD 0) := by
      intro x3 h3
      have hl : x3.pids.length = x.pids.length + 1 := by simp [h3]
      obtain ⟨x', hx', hp'⟩ := ih x3 (by omega) hopen'
        (fun i h1 h2 => hpipe i (by omega) (by omega))
        (fun i h1 h2 => hfork i (by omega) (by omega))
      refine ⟨x', hx', ?_⟩
      rw [hp', hl, h3, List.range'_succ]
      simp [hpid]
    unfold execLoop
    cases hin : cmd.input_file with
    | none =>
      cases hnx : cmd.next with
      | none =>
        simp only [hpid, hcap, if_false]
        exact key _ rfl
      | some nx =>
        simp only [hk1, if_true, hpid, hcap, if_false]
        exact key _ rfl
    | some path =>
      have hop := hopen cmd (List.mem_cons_self _ _) path hin
      cases hnx : cmd.next with
      | none =>
        simp only [hop, if_true, hpid, hcap, if_false]
        exact key _ rfl
      | some nx =>
        simp only [hop, hk1, if_true, hpid, hcap, if_false]
        exact key _ rfl

theorem take_append_take (l r : List Job) (n : Nat) :
    (l.take n ++ r).take n = (l ++ r).take n := by
  rcases Nat.lt_or_ge n l.length with h | h
  · have h1 : (l.take n).length = n := by simp; omega
    rw [List.take_append_of_le_length (by omega), List.take_append_of_le_length (by omega)]
    simp
  · rw [List.take_of_length_le h]

theorem add_job_eq_take (jobs : List Job) (pid : Int) (line : CStr)
    (hj : jobs.length ≤ MAX_JOBS) (hl : line.length ≤ MAX_CMD_LENGTH) :
    add_job jobs pid line = (jobs ++ [({ pid := pid, cmdline := line } : Job)]).take MAX_JOBS := by
  have hs : strncpy line MAX_CMD_LENGTH = line := List.take_of_length_le hl
  unfold add_job
  rw [hs]
  by_cases h : jobs.length < MAX_JOBS
  · simp only [h, if_true]
    rw [List.take_of_length_le (by simp; omega)]
  · have : jobs.length = MAX_JOBS := by omega
    simp only [h, if_false]
    rw [List.take_append_of_le_length (by omega), List.take_of_length_le (by omega)]

theorem waitLoop_jobs (env : Env) (line : CStr) (hl : line.length ≤ MAX_CMD_LENGTH) :
    ∀ (pids : List Int) (i : Nat) (jobs : List Job), jobs.length ≤ MAX_JOBS →
      (waitLoop env line i pids jobs).1 =
        (jobs ++ ((pids.enumFrom i).filter (fun ip => WIFSTOPPED (env.wait_status ip.1))).map
          (fun ip => ({ pid := ip.2, cmdline := line } : Job))).take MAX_JOBS := by
  intro pids
  induction pids with
  | nil =>
    intro i jobs hj
    simp [waitLoop, List.take_of_length_le hj]
  | cons pid rest ih =>
    intro i jobs hj
    simp only [waitLoop, List.enumFrom_cons]
    cases hs : WIFSTOPPED (env.wait_status i) with
    | true =>
      simp only [List.filter_cons, hs, if_true, List.map_cons]
      rw [add_job_eq_take jobs pid line hj hl]
      rw [ih (i + 1) _ (by simp), take_append_take]
      simp
    | false =>
      simp only [List.filter_cons, hs, Bool.false_eq_true, if_false]
      rw [ih (i + 1) jobs hj]

/-- Up to `MAX_ARGS` stages the job table is as the specification says: for a
line that fits the line buffer, is not a built-in, parses to at most `MAX_ARGS`
stages and has all of them forked, the table after `execute_line` is the table
before followed by one entry `(pid, line)` per stopped stage, in stage order,
cut at `MAX_JOBS` entries. -/
theorem execute_line_registers_stopped (env : Env) (jobs : List Job) (line : CStr)
    (p : List Command)
    (hline : line.length < MAX_CMD_LENGTH) (hjobs : jobs.length ≤ MAX_JOBS)
    (hparse : parse_command line = .ok p)
    (hnb : ∀ c, p.head? = some c → is_builtin c = some false)
    (hn : p.length ≤ MAX_ARGS)
    (hopen : ∀ c ∈ p, ∀ path, c.input_file = some path → env.open_ok path = true)
    (hpipe : ∀ i, i < p.length → env.pipe_ok i = true)
    (hfork : ∀ i, i < p.length → (env.fork_pid i).isSome = true) :
    ∃ events, execute_line env jobs line = .done
      { jobs := (jobs ++ stoppedEntries env.wait_status line (forkPids env p.length)).take MAX_JOBS,
        events := events, exit_status := none } := by
  have hcopy : strncpy line MAX_CMD_LENGTH = line := List.take_of_length_le (by omega)
  obtain ⟨x, hx, hp⟩ := execLoop_finished env p XState.init (by simpa [XState.init] using hn) hopen
    (fun i _ h2 => hpipe i (by simpa [XState.init] using h2))
    (fun i _ h2 => hfork i (by simpa [XState.init] using h2))
  have hpids : x.pids = forkPids env p.length := by
    rw [hp]
    simp [XState.init, forkPids, List.range_eq_range']
  have hw := waitLoop_jobs env line (by omega) x.pids 0 jobs hjobs
  unfold execute_line
  rw [hparse, hcopy]
  cases p with
  | nil =>
    have h2 := hparse
    rw [parse_command_eq] at h2
    exact absurd rfl (absLoop_ok_good _ _ _ agood_init h2).1
  | cons head tl =>
    have hb := hnb head rfl
    refine ⟨x.events ++ (waitLoop env line 0 x.pids jobs).2, ?_⟩
    simp only [afterParse, hb, execute_commands, hx]
    rw [hw, hpids]
    rfl

/-- The line `sleep 9 | cat` with its first stage stopped: one job, the pid of
that stage with the whole line. -/
theorem execute_line_registers_stopped_example :
    ∃ events, execute_line envFirstStopped [] "sleep 9 | cat".toList = .done
      { jobs := [{ pid := 100, cmdline := "sleep 9 | cat".toList }],
        events := events, exit_status := none } := by
  have hparse : parse_command "sleep 9 | cat".toList = .ok
      [ { args := [['s', 'l', 'e', 'e', 'p'], ['9']], input_file := none, output_file := none,
          append := false, next := some 1 },
        { args := [['c', 'a', 't']], input_file := none, output_file := none,
          append := false, next := none } ] := by
    rw [parse_command_eq]; decide
  obtain ⟨events, h⟩ := execute_line_registers_stopped envFirstStopped [] "sleep 9 | cat".toList _
    (by decide) (by decide) hparse
    (by intro c hc; cases hc; decide)
    (by decide)
    (by
      intro c hc path hp
      simp only [List.mem_cons, List.mem_singleton, List.not_mem_nil, or_false] at hc
      rcases hc with rfl | rfl <;> cases hp)
    (fun _ _ => rfl) (fun _ _ => rfl)
  refine ⟨events, ?_⟩
  rw [h]
  rfl

/-- When `parse_command` returns 0 a stage other than the head has an input
file only if its `args` array is full (an argument was stored past it), and no
`<` operator of the line stands after a pipe separator. -/
theorem input_file_behind_head_needs_full_args (line : List Char) (p : List Command)
    (h : parse_command line = .ok p) :
    (∀ c ∈ p.tail, c.input_file = none ∨ MAX_ARGS ≤ c.args.length) ∧
    inAfterPipe false (lineItems line) = false := by
  have h2 := h
  rw [parse_command_eq] at h2
  obtain ⟨_, _, hin⟩ := absLoop_ok_good _ _ _ agood_init h2
  refine ⟨hin, ?_⟩
  cases he : inAfterPipe false (lineItems line) with
  | false => rfl
  | true => exact absurd h2 (absLoop_inAfterPipe _ _ _ false (by simp) he)

/-! ## The claims -/

/-- C1 (fails on the code): the line `ls > f | cat` is accepted, and in the
pipeline returned the first stage, which has a next stage, carries the output
file `f`. The guard `has_pipe && current_cmd->next != NULL` never holds because
the node being filled is always the last one. -/
theorem output_redirect_before_pipe_accepted :
    parse_command "ls > f | cat".toList = .ok
      [ { args := [['l', 's']], input_file := none, output_file := some ['f'],
          append := false, next := some 1 },
        { args := [['c', 'a', 't']], input_file := none, output_file := none,
          append := false, next := none } ] := by
  rw [parse_command_eq]
  decide

/-- C2 (fails on the code): on `cat < f | cat | cat` the second stage writes to
pipe 1, but the third stage is forked with the terminal as standard input, not
the read end of pipe 1: `input_fd` still holds descriptor 3 of the closed input
file when the parent closes it again after the second fork, and by then 3 is
the read end of pipe 1. -/
theorem stale_input_fd_breaks_pipe :
    (forkedChildren (execute_line envAllOk [] "cat < f | cat | cat".toList).events).map
        (fun c => (c.stage, c.stdin, c.stdout)) =
      [ (0, some (.in_file ['f']), some (.pipe_write 0)),
        (1, some (.pipe_read 0), some (.pipe_write 1)),
        (2, some (.tty 0), some (.tty 1)) ] := by
  rw [execute_line_eq]
  decide

/-- C3 (fails on the code): a line whose first token is `<`, `>` or `>>`
followed by a file name stores through the null `current_cmd`. -/
theorem leading_redirect_faults :
    parse_command "< f".toList = .fault ∧ parse_command "> f".toList = .fault ∧
      parse_command ">> f".toList = .fault := by
  decide

/-- C4 as stated is false: the last token of `cat < |` is `|`, yet the line is
accepted (the `|` is the input file) and a process is forked for it. -/
theorem trailing_pipe_as_operand_accepted :
    (tokenize "cat < |".toList).getLast? = some tokPipe ∧
    parse_command "cat < |".toList = .ok
      [ { args := [['c', 'a', 't']], input_file := some ['|'], output_file := none,
          append := false, next := none } ] ∧
    (forkedChildren (execute_line envAllOk [] "cat < |".toList).events).length = 1 := by
  refine ⟨by decide, ?_, ?_⟩
  · rw [parse_command_eq]; decide
  · rw [execute_line_eq]; decide

/-- C4 amended: reading the token after a redirection operator as its file
operand, a line that is only `|`, or whose last item is a pipe separator, or
that has two `<` operators or two `>`/`>>` operators, is never accepted;
whenever `parse_command` returns on it, it returns -1, and `execute_line`
reports invalid command, forks nothing and leaves the job table unchanged. -/
theorem malformed_line_rejected (env : Env) (jobs : List Job) (line : List Char)
    (hret : parse_command line ≠ .fault)
    (h : tokenize line = [tokPipe] ∨ (lineItems line).getLast? = some .pipe ∨
      2 ≤ countIn (lineItems line) ∨ 2 ≤ countOut (lineItems line)) :
    parse_command line = .invalid ∧
    execute_line env jobs line =
      .done { jobs := jobs, events := [.error .invalid_command], exit_status := none } := by
  have hnok : ∀ p, parse_command line ≠ .ok p := by
    intro p
    rw [parse_command_eq]
    rcases h with h | h | h | h
    · apply absLoop_emptyStage
      apply hasEmptyStage_lastPipe
      simp only [lineItems, h]
      decide
    · exact absLoop_emptyStage _ _ _ (hasEmptyStage_lastPipe _ _ h)
    · exact absLoop_countIn _ _ _ (by simpa [AState.init] using h)
    · exact absLoop_countOut _ _ _ (by simpa [AState.init] using h)
  have hinv : parse_command line = .invalid := by
    cases hp : parse_command line with
    | ok p => exact absurd hp (hnok p)
    | invalid => rfl
    | fault => exact absurd hp hret
  refine ⟨hinv, ?_⟩
  unfold execute_line
  rw [hinv]
  rfl

/-- Witness for C4 amended: the line `ls |`. -/
theorem malformed_line_rejected_witness :
    parse_command "ls |".toList ≠ .fault ∧
    (lineItems "ls |".toList).getLast? = some .pipe ∧
    parse_command "ls |".toList = .invalid ∧
    execute_line envAllOk [] "ls |".toList =
      .done { jobs := [], events := [.error .invalid_command], exit_status := none } :=
  have h1 : parse_command "ls |".toList ≠ .fault := by rw [parse_command_eq]; decide
  have h2 : (lineItems "ls |".toList).getLast? = some .pipe := by decide
  ⟨h1, h2, malformed_line_rejected envAllOk [] "ls |".toList h1 (Or.inr (Or.inl h2))⟩

/-- C5 (fails on the code): with one job in the table, `fg 1abc` is taken as
`fg 1`: the job is removed, SIGCONT is sent to it and the shell waits for it;
no invalid job is reported. -/
theorem fg_accepts_trailing_garbage :
    execute_line envAllOk [{ pid := 42, cmdline := "sleep 100".toList }] "fg 1abc".toList =
      .done { jobs := [], events := [.kill_cont 42 [], .waitpid 42], exit_status := none } := by
  rw [execute_line_eq]
  decide

/-- C6: when `parse_command` returns 0 the pipeline has at least one stage and
every stage has at least one argument; so the line is not empty, is not made of
spaces only, and none of its stages, before or after a `|`, lacks an argument. -/
theorem stages_have_args (line : List Char) (p : List Command)
    (h : parse_command line = .ok p) :
    p ≠ [] ∧ (∀ c ∈ p, c.args ≠ []) ∧
    line ≠ [] ∧ (∀ n, line ≠ List.replicate n ' ') ∧
    hasEmptyStage false (lineItems line) = false := by
  have h2 := h
  rw [parse_command_eq] at h2
  obtain ⟨hp, hargs, _⟩ := absLoop_ok_good _ _ _ agood_init h2
  refine ⟨hp, hargs, ?_, ?_, ?_⟩
  · intro hl
    subst hl
    have : parse_command [] = .invalid := by decide
    rw [this] at h
    cases h
  · intro n hl
    subst hl
    rw [parse_spaces] at h
    cases h
  · cases he : hasEmptyStage false (lineItems line) with
    | false => rfl
    | true => exact absurd h2 (absLoop_emptyStage _ _ _ he)

/-- Witness for C6: the line `ls -l | wc`. -/
theorem stages_have_args_witness :
    parse_command "ls -l | wc".toList = .ok
      [ { args := [['l', 's'], ['-', 'l']], input_file := none, output_file := none,
          append := false, next := some 1 },
        { args := [['w', 'c']], input_file := none, output_file := none,
          append := false, next := none } ] ∧
    hasEmptyStage false (lineItems "ls -l | wc".toList) = false :=
  have h : parse_command "ls -l | wc".toList = .ok
      [ { args := [['l', 's'], ['-', 'l']], input_file := none, output_file := none,
          append := false, next := some 1 },
        { args := [['w', 'c']], input_file := none, output_file := none,
          append := false, next := none } ] := by rw [parse_command_eq]; decide
  ⟨h, (stages_have_args _ _ h).2.2.2.2⟩

set_option maxRecDepth 1000000 in
set_option maxHeartbeats 4000000 in
/-- C7 (fails on the code): the line `a | b x x ... x`, whose second stage has
101 arguments, is accepted with an input file on the second stage. The word
branch stores without a bound test: argument 101 goes to `args[100]`, which is
the storage of `input_file`, and `execute_commands` then opens that file as the
standard input of stage 2 instead of the pipe. -/
theorem overflow_sets_input_file_behind_head :
    lineArgs101.length = 205 ∧
    inputFiles (parse_command lineArgs101) = some [none, some ['x']] ∧
    (forkedChildren (execute_line envAllOk [] lineArgs101).events).map
        (fun c => (c.stage, c.stdin)) =
      [(0, some (.tty 0)), (1, some (.in_file ['x']))] := by
  refine ⟨by decide, ?_, ?_⟩
  · rw [parse_command_eq]; decide
  · rw [execute_line_eq]; decide

/-- C8 as stated is false: `ls` and `-l` separated by a tab are one token, so
the stage has the single argument `ls<TAB>-l`. -/
theorem tab_is_not_a_separator :
    plainLine isBlank [] [(['l', 's'], [Char.ofNat 9]), (['-', 'l'], [])] = true ∧
    parse_command (joinLine [] [(['l', 's'], [Char.ofNat 9]), (['-', 'l'], [])]) =
      .ok [plainStage [['l', 's', Char.ofNat 9, '-', 'l']]] ∧
    parse_command (joinLine [] [(['l', 's'], [Char.ofNat 9]), (['-', 'l'], [])]) ≠
      .ok [plainStage [['l', 's'], ['-', 'l']]] := by
  decide

/-- C8 amended: a line of `n` plain tokens, `1 ≤ n < MAX_ARGS`, separated by
runs of spaces (leading and trailing runs allowed, any other character, a tab
included, being part of a token) parses to a single stage without redirection
whose arguments are these tokens in order. -/
theorem plain_tokens_single_stage (lead : List Char) (toks : List (CStr × List Char))
    (h : plainLine isDelim lead toks = true) (h1 : 1 ≤ toks.length)
    (h2 : toks.length < MAX_ARGS) :
    parse_command (joinLine lead toks) = .ok [plainStage (toks.map Prod.fst)] := by
  rw [parse_command_eq, lineItems, tokenize_joinLine toks lead h]
  have hall : (toks.map Prod.fst).all (fun w => !isOperator w) = true := by
    simp only [plainLine, Bool.and_eq_true] at h
    have := h.1.2
    simp only [List.all_eq_true, Bool.and_eq_true] at this
    simp only [List.all_eq_true, List.mem_map]
    rintro w ⟨p, hp, rfl⟩
    exact (this p hp).1.2
  rw [classify_plain _ hall]
  cases hm : toks.map Prod.fst with
  | nil =>
    have : toks = [] := by simpa using hm
    simp [this] at h1
  | cons w ws =>
    have hl : ws.length + 1 = toks.length := by
      have := congrArg List.length hm
      simpa using this.symm
    rw [absLoop_words ws w AState.init (by simp [AState.init, zeroCommand]; omega)]
    simp [absEnd, AState.init, zeroCommand, plainStage]

/-- Witness for C8 amended: the line ` ls   -l ` with its runs of spaces. -/
theorem plain_tokens_single_stage_witness :
    plainLine isDelim [' '] [(['l', 's'], [' ', ' ', ' ']), (['-', 'l'], [' '])] = true ∧
    parse_command (joinLine [' '] [(['l', 's'], [' ', ' ', ' ']), (['-', 'l'], [' '])]) =
      .ok [plainStage [['l', 's'], ['-', 'l']]] :=
  ⟨by decide, plain_tokens_single_stage [' '] [(['l', 's'], [' ', ' ', ' ']), (['-', 'l'], [' '])]
    (by decide) (by decide) (by decide)⟩

/-- C9: on a job table with pairwise distinct pids (at most `MAX_JOBS` entries,
each command line a string that fits its buffer), `fg` with an argument whose
`atoi` value is `k`, `1 ≤ k ≤ job_count`, removes exactly entry `k`, keeping the
others in order, before it sends SIGCONT; the table it leaves is that one when
the process exits or is killed, and that one followed by the removed entry
(same pid, same command line) when the process stops again, full table or not.
The decimal numeral of `k` is such an argument (`atoi_decimal`). -/
theorem fg_removes_and_reinserts (env : Env) (jobs : List Job) (k : Nat) (arg : CStr)
    (cmd : Command)
    (hcap : jobs.length ≤ MAX_JOBS)
    (hstr : ∀ j ∈ jobs, j.cmdline.length < MAX_CMD_LENGTH)
    (hnd : (jobs.map Job.pid).Nodup)
    (hk1 : 1 ≤ k) (hk2 : k ≤ jobs.length)
    (hcmd : cmd.args = [nameFg, arg]) (harg : atoi arg = (k : Int)) :
    ∃ job, jobs[k - 1]? = some job ∧
      execute_builtin env jobs cmd = .done
        { jobs := if env.fg_status = .stopped then jobs.eraseIdx (k - 1) ++ [job]
                  else jobs.eraseIdx (k - 1),
          events :=
            (if env.kill_ok job.pid then [Event.kill_cont job.pid (jobs.eraseIdx (k - 1))]
             else [Event.kill_cont job.pid (jobs.eraseIdx (k - 1)), Event.perror_kill])
            ++ [Event.waitpid job.pid],
          exit_status := none } := by
  have hkl : k - 1 < jobs.length := by omega
  refine ⟨jobs[k - 1], by simp [hkl], ?_⟩
  have hget : jobs[k - 1]? = some jobs[k - 1] := by simp [hkl]
  have hidx : ((k : Int) - 1).toNat = k - 1 := by omega
  have hrm := remove_job_nodup jobs (k - 1) jobs[k - 1] hnd hget
  have hcl : strncpy (strncpy (jobs[k - 1]).cmdline MAX_CMD_LENGTH) MAX_CMD_LENGTH
      = (jobs[k - 1]).cmdline := by
    have := hstr jobs[k - 1] (List.getElem_mem _)
    simp only [strncpy]
    rw [List.take_of_length_le (by simp), List.take_of_length_le (by omega)]
  have hc1 : ¬ ((k : Int) < 1 ∨ (jobs.length : Int) < (k : Int)) := by omega
  have hlen : (jobs.eraseIdx (k - 1)).length < MAX_JOBS := by
    rw [List.length_eraseIdx]; simp only [hkl, if_true]; omega
  unfold execute_builtin
  simp only [hcmd]
  have n1 : nameFg ≠ nameCd := by decide
  have n2 : nameFg ≠ nameExit := by decide
  have n3 : nameFg ≠ nameJobs := by decide
  simp only [n1, n2, n3, if_false, if_true, List.length_cons, List.length_nil]
  have ha : ([nameFg, arg].get? 1).getD [] = arg := rfl
  have hc2 : (decide ((k : Int) < 1) || decide ((k : Int) > (jobs.length : Int))) = false := by
    simp only [Bool.or_eq_false_iff, decide_eq_false_iff_not]
    omega
  have hw : (WIFSTOPPED env.fg_status = true) ↔ env.fg_status = .stopped := by
    cases env.fg_status <;> simp [WIFSTOPPED]
  have hadd : add_job (jobs.eraseIdx (k - 1)) (jobs[k - 1]).pid
      (strncpy (jobs[k - 1]).cmdline MAX_CMD_LENGTH)
      = jobs.eraseIdx (k - 1) ++ [jobs[k - 1]] := by
    simp only [add_job, hlen, if_true, hcl]
  simp only [List.getD, ha, harg, hc2, hidx, hget, hrm, hw, hadd]
  simp

/-- Witness for C9: `fg 2` on a table of three jobs, the process stopping again. -/
theorem fg_removes_and_reinserts_witness :
    execute_builtin { envAllOk with fg_status := .stopped }
        [⟨10, ['a']⟩, ⟨11, ['b']⟩, ⟨12, ['c']⟩] (plainStage [nameFg, ['2']]) =
      .done { jobs := [⟨10, ['a']⟩, ⟨12, ['c']⟩, ⟨11, ['b']⟩],
              events := [.kill_cont 11 [⟨10, ['a']⟩, ⟨12, ['c']⟩], .waitpid 11],
              exit_status := none } := by
  obtain ⟨job, hj, h⟩ := fg_removes_and_reinserts { envAllOk with fg_status := .stopped }
    [⟨10, ['a']⟩, ⟨11, ['b']⟩, ⟨12, ['c']⟩] 2 ['2'] (plainStage [nameFg, ['2']])
    (by decide) (by decide) (by decide) (by decide) (by decide) rfl (by decide)
  have hjob : job = ⟨11, ['b']⟩ := by
    have : some job = some (⟨11, ['b']⟩ : Job) := by rw [← hj]; rfl
    injection this
  subst hjob
  rw [h]
  rfl

/-- C10: `exit` without arguments terminates the shell with status 0 when the
job table is empty; when it is not, it reports suspended jobs, does not
terminate and leaves the table as it is; `exit` with arguments reports invalid
command and does not terminate. -/
theorem exit_iff_no_jobs (env : Env) (jobs : List Job) (cmd : Command) (rest : List CStr)
    (hcmd : cmd.args = nameExit :: rest) :
    (rest = [] → jobs = [] →
      execute_builtin env jobs cmd = .done { jobs := [], events := [], exit_status := some 0 }) ∧
    (rest = [] → jobs ≠ [] →
      execute_builtin env jobs cmd =
        .done { jobs := jobs, events := [.error .suspended_jobs], exit_status := none }) ∧
    (rest ≠ [] →
      execute_builtin env jobs cmd =
        .done { jobs := jobs, events := [.error .invalid_command], exit_status := none }) := by
  have n1 : nameExit ≠ nameCd := by decide
  unfold execute_builtin
  simp only [hcmd, n1, if_false, if_true, List.length_cons]
  refine ⟨?_, ?_, ?_⟩
  · intro hr hj
    subst hr; subst hj
    simp
  · intro hr hj
    subst hr
    have : jobs.length > 0 := List.length_pos.mpr hj
    simp [this]
  · intro hr
    have : rest.length + 1 ≠ 1 := by
      have := List.length_pos.mpr hr
      omega
    simp [this]

/-- Witness for C10: `exit` on the empty table, and on a table of one job. -/
theorem exit_iff_no_jobs_witness :
    execute_builtin envAllOk [] (plainStage [nameExit]) =
      .done { jobs := [], events := [], exit_status := some 0 } ∧
    execute_builtin envAllOk [⟨10, ['a']⟩] (plainStage [nameExit]) =
      .done { jobs := [⟨10, ['a']⟩], events := [.error .suspended_jobs], exit_status := none } :=
  ⟨(exit_iff_no_jobs envAllOk [] (plainStage [nameExit]) [] rfl).1 rfl rfl,
   (exit_iff_no_jobs envAllOk [⟨10, ['a']⟩] (plainStage [nameExit]) [] rfl).2.1 rfl (by decide)⟩

set_option maxRecDepth 1000000 in
set_option maxHeartbeats 4000000 in
/-- C11 (fails on the code): the line `a | a | ... | a` of 101 stages fits the
line buffer and parses to 101 stages, and with every `open`, `pipe` and `fork`
succeeding `execute_commands` stores the 101st pid in `pids[100]`, past the end
of `pid_t pids[MAX_ARGS]`: the call has undefined behaviour and no job table is
promised. -/
theorem pids_overflow_past_max_args :
    line101.length = 401 ∧ stageCount (parse_command line101) = some 101 ∧
    execute_line envAllOk [] line101 = .fault := by
  refine ⟨by decide, ?_, ?_⟩
  · rw [parse_command_eq]; decide
  · rw [execute_line_eq]; decide

end Nyush
